import Mathlib

/-!
Verification of the incremental streaming-markup renderer of the Nvidia_NIM
conversational web client (src/script.js).

The development shallowly embeds the renderer pipeline over `List Char`:
- JS string primitives (`String.prototype.replace` with a global literal
  pattern, `parseInt`, `Math.round`, number formatting, `toLowerCase`),
- `escapeHTML` (script.js lines 21-29),
- the tag normalizer and the reasoning-block extractor regex of
  `renderMarkdown` (lines 143-223),
- the custom link renderer (lines 99-134),
- the diff-preserving merge of `streamToMessage` (lines 2254-2302),
- the duration bake of `finalizeStreamingMessage` (lines 2305-2346),
- a sanitizer modelled from the specification (DOMPurify is an external
  library, not part of this repository's sources).

Scanning functions are written with an explicit fuel argument (always called
with fuel = length of the scanned list) so that they are structurally
recursive and reduce by `decide`/`rfl` on concrete inputs.
-/

/-- Fueled scanner for `String.prototype.replace(/pat/g, rep)` with a literal
pattern: scans left to right, replaces each non-overlapping occurrence of
`pat` and continues after the replacement without rescanning it. -/
def replaceAllF (pat rep : List Char) : Nat → List Char → List Char
  | 0, s => s
  | _ + 1, [] => []
  | fuel + 1, c :: rest =>
    if pat.isPrefixOf (c :: rest) then
      rep ++ replaceAllF pat rep fuel ((c :: rest).drop pat.length)
    else
      c :: replaceAllF pat rep fuel rest

/-- JS `s.replace(/pat/g, rep)` for a literal (regex-metacharacter-free) pattern. -/
def replaceAll (pat rep s : List Char) : List Char :=
  replaceAllF pat rep s.length s

/-- JS `String.prototype.replace` with a *string* pattern replaces only the first
occurrence (script.js lines 210-211). -/
def replaceFirst (pat rep : List Char) : List Char → List Char
  | [] => []
  | c :: rest =>
    if pat.isPrefixOf (c :: rest) then rep ++ (c :: rest).drop pat.length
    else c :: replaceFirst pat rep rest

/-- JS `parseInt(s, 10)`: skip leading whitespace, optional sign, then a
(nonempty) run of decimal digits; `none` models `NaN`. -/
def jsParseInt (s : List Char) : Option Int :=
  let s1 := s.dropWhile (fun c => c = ' ' ∨ c = '\t' ∨ c = '\n' ∨ c = '\r')
  let p : Int × List Char :=
    match s1 with
    | '-' :: r => (-1, r)
    | '+' :: r => (1, r)
    | r => (1, r)
  let ds := p.2.takeWhile (fun c => '0' ≤ c ∧ c ≤ '9')
  if ds = [] then none
  else some (p.1 * ds.foldl (fun acc c => acc * 10 + ((c.toNat : Int) - 48)) 0)

/-- Decimal digits of a natural number (fueled; fuel `n + 1` suffices). -/
def natDigitsF : Nat → Nat → List Char
  | 0, _ => []
  | fuel + 1, n =>
    if n < 10 then [Nat.digitChar n]
    else natDigitsF fuel (n / 10) ++ [Nat.digitChar (n % 10)]

/-- Decimal representation of a natural number. -/
def natToChars (n : Nat) : List Char := natDigitsF (n + 1) n

/-- JS number-to-string conversion for integral values. -/
def jsIntToChars (i : Int) : List Char :=
  if i < 0 then '-' :: natToChars i.natAbs else natToChars i.natAbs

/-- JS `Math.round(ms / 1000)` for an integer `ms`: floor(ms/1000 + 1/2). -/
def jsRoundDiv1000 (ms : Int) : Int := Int.fdiv (ms + 500) 1000

/-- Character expansion (used to state what sequential escaping computes). -/
def expandChars (f : Char → List Char) : List Char → List Char
  | [] => []
  | c :: rest => f c ++ expandChars f rest

/-- A JS value as seen by `typeof`: a string or anything else. -/
inductive JsVal where
  | str (s : String)
  | nonString
deriving DecidableEq

/-- The `escapeHTML` method (script.js lines 21-29) on the character list of a string:
five sequential global replaces, `&` first. -/
def escapeHTMLl (s : List Char) : List Char :=
  replaceAll ['\''] "&#39;".data
    (replaceAll ['"'] "&quot;".data
      (replaceAll ['>'] "&gt;".data
        (replaceAll ['<'] "&lt;".data
          (replaceAll ['&'] "&amp;".data s))))

/-- The method `escapeHTML(str)` (script.js lines 21-29): returns `''` for any
non-string input, otherwise escapes the five HTML metacharacters. -/
def escapeHTML : JsVal → String
  | .str s => ⟨escapeHTMLl s.data⟩
  | .nonString => ""

/-- Per-character escape table of `escapeHTML`. -/
def escChar (x : Char) : List Char :=
  if x = '&' then "&amp;".data
  else if x = '<' then "&lt;".data
  else if x = '>' then "&gt;".data
  else if x = '"' then "&quot;".data
  else if x = '\'' then "&#39;".data
  else [x]

/-- The branch of `renderMarkdown` taken when the markup library is unavailable
(script.js line 144): it returns `escapeHTML(text)`. -/
def renderMarkdownNoLib (text : JsVal) : String := escapeHTML text

-- ### Basic lemmas about the fueled primitives

theorem replaceAllF_nil (pat rep : List Char) : ∀ f, replaceAllF pat rep f [] = []
  | 0 => rfl
  | _ + 1 => rfl

theorem replaceAllF_congr (pat rep : List Char) (hp : pat ≠ []) :
    ∀ f₁ f₂ s, s.length ≤ f₁ → s.length ≤ f₂ →
      replaceAllF pat rep f₁ s = replaceAllF pat rep f₂ s := by
  intro f₁
  induction f₁ with
  | zero =>
    intro f₂ s hs _
    have : s = [] := List.eq_nil_of_length_eq_zero (Nat.le_zero.mp hs)
    subst this
    simp [replaceAllF_nil]
  | succ f ih =>
    intro f₂ s hs₁ hs₂
    match s with
    | [] => simp [replaceAllF_nil]
    | c :: rest =>
      have hlen : rest.length + 1 ≤ f + 1 := by simpa using hs₁
      have hf₂ : ∃ g, f₂ = g + 1 := by
        cases f₂ with
        | zero => simp at hs₂
        | succ g => exact ⟨g, rfl⟩
      obtain ⟨g, rfl⟩ := hf₂
      have hg : rest.length + 1 ≤ g + 1 := by simpa using hs₂
      have hpatlen : 1 ≤ pat.length := by
        have := List.length_pos.mpr hp
        omega
      by_cases hpre : pat.isPrefixOf (c :: rest)
      · have hdrop : ((c :: rest).drop pat.length).length ≤ f := by
          simp only [List.length_drop, List.length_cons]
          omega
        have hdrop' : ((c :: rest).drop pat.length).length ≤ g := by
          simp only [List.length_drop, List.length_cons]
          omega
        simp only [replaceAllF, if_pos hpre]
        rw [ih g _ hdrop hdrop']
      · simp only [replaceAllF, if_neg hpre]
        rw [ih g rest (by omega) (by omega)]

theorem replaceAll_nil (pat rep : List Char) : replaceAll pat rep [] = [] := rfl

/-- One-step unfolding of `replaceAll` on a nonempty list. -/
theorem replaceAll_eq (pat rep : List Char) (hp : pat ≠ []) (c : Char) (rest : List Char) :
    replaceAll pat rep (c :: rest) =
      if pat.isPrefixOf (c :: rest) then
        rep ++ replaceAll pat rep ((c :: rest).drop pat.length)
      else
        c :: replaceAll pat rep rest := by
  have hpatlen : 1 ≤ pat.length := by
    have := List.length_pos.mpr hp
    omega
  by_cases hpre : pat.isPrefixOf (c :: rest)
  · simp only [replaceAll, List.length_cons, replaceAllF, if_pos hpre]
    congr 1
    exact replaceAllF_congr pat rep hp _ _ _
      (by simp only [List.length_drop, List.length_cons]; omega) le_rfl
  · simp only [replaceAll, List.length_cons, replaceAllF, if_neg hpre]

/-- Scanning a concatenation splits when no occurrence of the pattern can
cross the boundary: whenever a proper nonempty prefix of `pat` is a suffix
of `a`, the rest of `pat` is not a prefix of `b`. -/
theorem replaceAll_append (pat rep : List Char) (hp : pat ≠ []) :
    ∀ (n : Nat) (a b : List Char), a.length ≤ n →
      (∀ k, 0 < k → k < pat.length → pat.take k <:+ a → ¬ pat.drop k <+: b) →
      replaceAll pat rep (a ++ b) = replaceAll pat rep a ++ replaceAll pat rep b := by
  intro n
  induction n with
  | zero =>
    intro a b ha _
    have : a = [] := List.eq_nil_of_length_eq_zero (Nat.le_zero.mp ha)
    subst this
    simp [replaceAll_nil]
  | succ n ih =>
    intro a b ha hcross
    cases a with
    | nil => simp [replaceAll_nil]
    | cons c a' =>
      have hpatlen : 1 ≤ pat.length := by
        have := List.length_pos.mpr hp
        omega
      have ha' : a'.length + 1 ≤ n + 1 := by simpa using ha
      by_cases hm : pat <+: (c :: a') ++ b
      · have hm' : pat <+: c :: (a' ++ b) := by rw [← List.cons_append]; exact hm
        by_cases hma : pat <+: (c :: a')
        · have hlen : pat.length ≤ (c :: a').length := hma.length_le
          rw [show ((c :: a') ++ b) = c :: (a' ++ b) from rfl,
              replaceAll_eq pat rep hp c (a' ++ b),
              if_pos (List.isPrefixOf_iff_prefix.mpr hm'),
              replaceAll_eq pat rep hp c a',
              if_pos (List.isPrefixOf_iff_prefix.mpr hma)]
          have hdropapp : (c :: (a' ++ b)).drop pat.length =
              (c :: a').drop pat.length ++ b := by
            rw [show (c :: (a' ++ b)) = (c :: a') ++ b from rfl,
                List.drop_append_eq_append_drop,
                show pat.length - (c :: a').length = 0 by omega,
                List.drop_zero]
          rw [hdropapp,
              ih ((c :: a').drop pat.length) b
                (by simp only [List.length_drop, List.length_cons]; omega)
                (fun k hk1 hk2 hsuf => hcross k hk1 hk2 (hsuf.trans (List.drop_suffix _ _))),
              List.append_assoc]
        · exfalso
          obtain ⟨t, ht⟩ := hm
          have hlen : (c :: a').length < pat.length := by
            by_contra hle
            push_neg at hle
            apply hma
            have h1 : ((c :: a') ++ b).take pat.length = pat := by
              rw [← ht, List.take_append_of_le_length le_rfl, List.take_length]
            have h0 : (c :: a').take pat.length = pat := by
              rwa [List.take_append_of_le_length hle] at h1
            exact h0 ▸ List.take_prefix pat.length (c :: a')
          have ha_eq : pat.take (c :: a').length = c :: a' := by
            have h1 : ((c :: a') ++ b).take (c :: a').length = c :: a' := by simp
            rwa [← ht, List.take_append_of_le_length (by omega)] at h1
          have hb : pat.drop (c :: a').length <+: b := by
            have h3 : ((c :: a') ++ b).drop (c :: a').length = b := by simp
            rw [← ht, List.drop_append_eq_append_drop,
                show (c :: a').length - pat.length = 0 by omega,
                List.drop_zero] at h3
            exact ⟨t, h3⟩
          refine hcross (c :: a').length (by simp) hlen ?_ hb
          rw [ha_eq]
      · have hma : ¬ pat <+: (c :: a') := fun h => hm (h.trans (List.prefix_append _ _))
        have hm' : ¬ pat <+: c :: (a' ++ b) := by rw [← List.cons_append]; exact hm
        rw [show ((c :: a') ++ b) = c :: (a' ++ b) from rfl,
            replaceAll_eq pat rep hp c (a' ++ b),
            if_neg (fun h => hm' (List.isPrefixOf_iff_prefix.mp h)),
            replaceAll_eq pat rep hp c a',
            if_neg (fun h => hma (List.isPrefixOf_iff_prefix.mp h)),
            ih a' b (by simpa using ha)
              (fun k hk1 hk2 hsuf => hcross k hk1 hk2 (hsuf.trans (List.suffix_cons c a')))]
        rfl

/-- Scanning a match at the head of the scanned list. -/
theorem replaceAll_head (pat rep rest : List Char) (hp : pat ≠ []) :
    replaceAll pat rep (pat ++ rest) = rep ++ replaceAll pat rep rest := by
  cases pat with
  | nil => exact absurd rfl hp
  | cons c p' =>
    rw [show ((c :: p') ++ rest) = c :: (p' ++ rest) from rfl,
        replaceAll_eq _ _ hp,
        if_pos (List.isPrefixOf_iff_prefix.mpr
          (show (c :: p') <+: c :: (p' ++ rest) from List.prefix_append _ _)),
        show (c :: (p' ++ rest)) = (c :: p') ++ rest from rfl,
        List.drop_left]

/-- Degenerate crossing condition: no proper tail of the pattern begins `b`. -/
theorem noCross_of_drop (pat b : List Char)
    (h : ∀ k, k < pat.length → 0 < k → ¬ pat.drop k <+: b) (a : List Char) :
    ∀ k, 0 < k → k < pat.length → pat.take k <:+ a → ¬ pat.drop k <+: b :=
  fun k hk1 hk2 _ => h k hk2 hk1

/-- Degenerate crossing condition: no proper head of the pattern ends `a`. -/
theorem noCross_of_take (pat a : List Char)
    (h : ∀ k, k < pat.length → 0 < k → ¬ pat.take k <:+ a) (b : List Char) :
    ∀ k, 0 < k → k < pat.length → pat.take k <:+ a → ¬ pat.drop k <+: b :=
  fun k hk1 hk2 hs => absurd hs (h k hk2 hk1)

/-- Tag Normalizer (script.js line 147): rewrite the alias tag pair
`<thinking>`/`</thinking>` to the canonical `<think>`/`</think>` pair,
opening tags first, as two chained global replaces. -/
def normalizeThink (s : List Char) : List Char :=
  replaceAll "</thinking>".data "</think>".data
    (replaceAll "<thinking>".data "<think>".data s)

theorem normalizeThink_wrap (X : List Char) :
    normalizeThink ("<thinking>".data ++ X ++ "</thinking>".data)
      = "<think>".data ++ normalizeThink X ++ "</think>".data := by
  unfold normalizeThink
  rw [List.append_assoc, replaceAll_head _ _ _ (by decide),
      replaceAll_append "<thinking>".data "<think>".data (by decide) X.length X
        "</thinking>".data le_rfl
        (noCross_of_drop _ _ (by decide) X),
      show replaceAll "<thinking>".data "<think>".data "</thinking>".data
        = "</thinking>".data from by decide,
      replaceAll_append "</thinking>".data "</think>".data (by decide) _ "<think>".data _
        le_rfl (noCross_of_take _ _ (by decide) _),
      show replaceAll "</thinking>".data "</think>".data "<think>".data
        = "<think>".data from by decide,
      replaceAll_append "</thinking>".data "</think>".data (by decide) _ _
        "</thinking>".data le_rfl (noCross_of_drop _ _ (by decide) _),
      show replaceAll "</thinking>".data "</think>".data "</thinking>".data
        = "</think>".data from by decide,
      ← List.append_assoc]

theorem normalizeThink_wrap_canonical (X : List Char) :
    normalizeThink ("<think>".data ++ X ++ "</think>".data)
      = "<think>".data ++ normalizeThink X ++ "</think>".data := by
  unfold normalizeThink
  rw [List.append_assoc,
      replaceAll_append "<thinking>".data "<think>".data (by decide) _ "<think>".data _
        le_rfl (noCross_of_take _ _ (by decide) _),
      show replaceAll "<thinking>".data "<think>".data "<think>".data
        = "<think>".data from by decide,
      replaceAll_append "<thinking>".data "<think>".data (by decide) _ X
        "</think>".data le_rfl (noCross_of_drop _ _ (by decide) _),
      show replaceAll "<thinking>".data "<think>".data "</think>".data
        = "</think>".data from by decide,
      replaceAll_append "</thinking>".data "</think>".data (by decide) _ "<think>".data _
        le_rfl (noCross_of_take _ _ (by decide) _),
      show replaceAll "</thinking>".data "</think>".data "<think>".data
        = "<think>".data from by decide,
      replaceAll_append "</thinking>".data "</think>".data (by decide) _ _
        "</think>".data le_rfl (noCross_of_drop _ _ (by decide) _),
      show replaceAll "</thinking>".data "</think>".data "</think>".data
        = "</think>".data from by decide,
      ← List.append_assoc]

/-- The alias wrapper and the canonical wrapper normalize identically. -/
theorem normalizeThink_alias (X : List Char) :
    normalizeThink ("<thinking>".data ++ X ++ "</thinking>".data)
      = normalizeThink ("<think>".data ++ X ++ "</think>".data) := by
  rw [normalizeThink_wrap, normalizeThink_wrap_canonical]

-- ### Reasoning-Block Extractor (script.js lines 149-202)

/-- One reasoning-block record captured by the extractor regex. -/
structure ThinkBlock where
  startAttr : Option (List Char)
  durAttr : Option (List Char)
  content : List Char
  closed : Bool
deriving DecidableEq, Repr

/-- One optional attribute group `(?: key="([^"]*)")?` of the extractor
regex: the literal `key="`, a greedy run of non-quote characters, then `"`. -/
def matchAttr (key s : List Char) : Option (List Char × List Char) :=
  if key.isPrefixOf s then
    let s1 := s.drop key.length
    let v := s1.takeWhile (fun c => c ≠ '"')
    match s1.drop v.length with
    | '"' :: r => some (v, r)
    | _ => none
  else none

/-- The attribute part and `>` of the opening-tag regex, tried at the point
just after the literal `<think`, in the regex engine's backtracking order
over the two optional groups (both, start only, duration only, neither). -/
def matchThinkTail (st du : Option (List Char)) (r : List Char) :
    Option (Option (List Char) × Option (List Char) × List Char) :=
  match r with
  | '>' :: r' => some (st, du, r')
  | _ => none

def matchThinkAt (s : List Char) :
    Option (Option (List Char) × Option (List Char) × List Char) :=
  (match matchAttr " start=\"".data s with
   | some (sv, r1) =>
     match matchAttr " duration=\"".data r1 with
     | some (dv, r2) => matchThinkTail (some sv) (some dv) r2
     | none => none
   | none => none) <|>
  (match matchAttr " start=\"".data s with
   | some (sv, r1) => matchThinkTail (some sv) none r1
   | none => none) <|>
  (match matchAttr " duration=\"".data s with
   | some (dv, r1) => matchThinkTail none (some dv) r1
   | none => none) <|>
  matchThinkTail none none s

/-- Split at the first occurrence of `</think>`: the lazy `[\s\S]*?` of the
extractor regex stops at the first closing tag; `none` when there is none
before the end of the buffer. -/
def splitAtClose : List Char → Option (List Char × List Char)
  | [] => none
  | c :: rest =>
    if "</think>".data.isPrefixOf (c :: rest) then some ([], (c :: rest).drop 8)
    else
      match splitAtClose rest with
      | some (pre, post) => some (c :: pre, post)
      | none => none

/-- The placeholder `THINKMARKER<i>ENDMARKER` (script.js line 201). -/
def markerChars (i : Nat) : List Char :=
  "THINKMARKER".data ++ natToChars i ++ "ENDMARKER".data

/-- Fueled scanner for the extractor regex
`<think(?: start="([^"]*)")?(?: duration="([^"]*)")?>` with lazy content up
to `</think>` or end of buffer (script.js line 159): every matched span is
replaced by its placeholder, and the captured data recorded in order.
An opening tag with no closing tag captures everything to the end of the
buffer as an open block. -/
def extractScanF : Nat → Nat → List Char → List Char × List ThinkBlock
  | 0, _, s => (s, [])
  | _ + 1, _, [] => ([], [])
  | fuel + 1, i, c :: rest =>
    if "<think".data.isPrefixOf (c :: rest) then
      match matchThinkAt ((c :: rest).drop 6) with
      | some (sv, dv, r) =>
        match splitAtClose r with
        | some (content, rest') =>
          let p := extractScanF fuel (i + 1) rest'
          (markerChars i ++ p.1, ⟨sv, dv, content, true⟩ :: p.2)
        | none => (markerChars i, [⟨sv, dv, r, false⟩])
      | none =>
        let p := extractScanF fuel i rest
        (c :: p.1, p.2)
    else
      let p := extractScanF fuel i rest
      (c :: p.1, p.2)

/-- The extractor scan over a whole buffer, first block index `i`. -/
def extractScan (i : Nat) (s : List Char) : List Char × List ThinkBlock :=
  extractScanF s.length i s

/-- The label computed for a reasoning block (script.js lines 163-178): a
nonempty literal duration attribute wins; otherwise, with a nonempty start
timestamp, an open block shows "Thinking" while a closed block shows a
live elapsed time recomputed from the wall clock `now`. -/
def durationText (now : Int) (sv dv : Option (List Char)) (closed : Bool) : List Char :=
  let fromStart : List Char :=
    match sv with
    | some ts =>
      if ts ≠ [] then
        if closed then
          "Thought for ".data ++
            (match jsParseInt ts with
             | some t => jsIntToChars (jsRoundDiv1000 (now - t))
             | none => "NaN".data) ++ ['s']
        else "Thinking".data
      else "Thinking".data
    | none => "Thinking".data
  match dv with
  | some d => if d ≠ [] then "Thought for ".data ++ d ++ ['s'] else fromStart
  | none => fromStart

/-- The `activeClass` value (script.js line 180): open blocks render with the
`thinking-active` and `expanded` classes. -/
def activeClassOf (closed : Bool) : List Char :=
  if closed then [] else " thinking-active expanded".data

/-- The HTML assembled for one reasoning block (script.js lines 186-196). -/
def blockHtml (activeClass label innerHtml : List Char) (idx : Nat) : List Char :=
  ("<div class=\"thought-block".data ++ activeClass ++ "\" data-thought-id=\"".data
    ++ natToChars idx ++ "\">\n".data)
  ++ "                <div class=\"thought-toggle\">\n".data
  ++ "                    <span class=\"thought-icon\">\n".data
  ++ "                        <svg width=\"10\" height=\"10\" viewBox=\"0 0 10 10\" fill=\"none\" stroke=\"currentColor\" stroke-width=\"1.5\" stroke-linecap=\"round\" stroke-linejoin=\"round\">\n".data
  ++ "                            <path d=\"M3 1L7 5L3 9\"/>\n".data
  ++ "                        </svg>\n".data
  ++ "                    </span>\n".data
  ++ ("                    <span class=\"thought-label\">".data ++ label ++ "</span>\n".data)
  ++ "                </div>\n".data
  ++ ("                <div class=\"thought-content\">".data ++ innerHtml ++ "</div>\n".data)
  ++ "            </div>".data

/-- The complete HTML for block number `idx` of a scan: active class from
its open/closed state, label from its attributes, inner content rendered
independently by the markup library `parse` (script.js lines 180-196). -/
def blockHtmlOf (parse : List Char → List Char) (now : Int) (idx : Nat)
    (b : ThinkBlock) : List Char :=
  blockHtml (activeClassOf b.closed) (durationText now b.startAttr b.durAttr b.closed)
    (parse b.content) idx

-- ### Sanitizer, modelled from the spec (section 4.5)
-- The implementation delegates sanitization to the external DOMPurify
-- library (script.js lines 215-219), which is not part of this repository;
-- the model below follows the spec: strip every tag/attribute not on a
-- fixed allow-list and keep everything else.

/-- A token of the sanitizer's view of markup. -/
inductive HtmlTok where
  | text (s : List Char)
  | tagOpen (name : List Char) (attrs : List (List Char × List Char))
  | tagClose (name : List Char)
deriving DecidableEq, Repr

/-- ASCII letter test for tag/attribute names. -/
def isAsciiLetter (c : Char) : Bool :=
  ('a' ≤ c && c ≤ 'z') || ('A' ≤ c && c ≤ 'Z')

/-- Characters allowed inside tag and attribute names. -/
def isNameChar (c : Char) : Bool :=
  isAsciiLetter c || c = '-' || ('0' ≤ c && c ≤ '9')

/-- Parse a tag's attribute list up to the closing `>`; `none` when the
buffer ends inside the tag. -/
def parseAttrsF : Nat → List Char → Option (List (List Char × List Char) × List Char)
  | 0, _ => none
  | _ + 1, [] => none
  | fuel + 1, c :: rest =>
    if c = '>' then some ([], rest)
    else if isNameChar c then
      let name := (c :: rest).takeWhile isNameChar
      let r1 := (c :: rest).drop name.length
      match r1 with
      | '=' :: '"' :: r2 =>
        let v := r2.takeWhile (fun x => x ≠ '"')
        match r2.drop v.length with
        | '"' :: r4 =>
          match parseAttrsF fuel r4 with
          | some (attrs, rest') => some ((name, v) :: attrs, rest')
          | none => none
        | _ => none
      | _ =>
        match parseAttrsF fuel r1 with
        | some (attrs, rest') => some ((name, []) :: attrs, rest')
        | none => none
    else parseAttrsF fuel rest

/-- Spec-modelled tokenizer front-end of the Sanitizer: split markup into
text runs, opening tags (name and attributes) and closing tags; a `<` that
does not begin a well-formed tag is treated as text. -/
def tokenizeF : Nat → List Char → List HtmlTok
  | 0, _ => []
  | _ + 1, [] => []
  | fuel + 1, c :: rest =>
    if c = '<' then
      match rest with
      | '/' :: r1 =>
        let name := r1.takeWhile isNameChar
        if name = [] then .text ['<'] :: tokenizeF fuel rest
        else
          match (r1.drop name.length).dropWhile (fun x => x ≠ '>') with
          | '>' :: r4 => .tagClose name :: tokenizeF fuel r4
          | _ => .text ['<'] :: tokenizeF fuel rest
      | _ =>
        let name := rest.takeWhile isNameChar
        if name = [] then .text ['<'] :: tokenizeF fuel rest
        else
          match parseAttrsF (rest.drop name.length).length (rest.drop name.length) with
          | some (attrs, rest') => .tagOpen name attrs :: tokenizeF fuel rest'
          | none => .text ['<'] :: tokenizeF fuel rest
    else
      .text [c] :: tokenizeF fuel rest

/-- The fixed tag allow-list of the Sanitizer (spec section 4.5): structural
markup tags, the icon-vector-graphics tag set, and the copy/toggle
interactive controls, including the tags added at script.js line 217. -/
def allowedTags : List (List Char) :=
  ["a", "p", "br", "strong", "em", "code", "pre", "ul", "ol", "li",
   "blockquote", "table", "thead", "tbody", "tr", "th", "td",
   "h1", "h2", "h3", "h4", "h5", "h6", "hr", "img",
   "div", "span", "i", "b", "u", "button", "svg", "path", "polyline",
   "line", "details", "summary"].map String.data

/-- The fixed attribute allow-list of the Sanitizer (spec section 4.5),
including the attributes added at script.js line 218. -/
def allowedAttrs : List (List Char) :=
  ["href", "src", "alt", "target", "class", "id", "data-code-id",
   "data-external", "title", "viewBox", "fill", "stroke", "stroke-width",
   "d", "points", "x1", "y1", "x2", "y2", "open", "data-thought-id",
   "width", "height", "rx", "ry", "stroke-linecap",
   "stroke-linejoin"].map String.data

/-- Escape for a text node: `&`, `<`, `>` become entities. -/
def escTextChar (c : Char) : List Char :=
  if c = '&' then "&amp;".data
  else if c = '<' then "&lt;".data
  else if c = '>' then "&gt;".data
  else [c]

/-- Escape for an attribute value: additionally escapes the double quote. -/
def escAttrChar (c : Char) : List Char :=
  if c = '&' then "&amp;".data
  else if c = '<' then "&lt;".data
  else if c = '>' then "&gt;".data
  else if c = '"' then "&quot;".data
  else [c]

/-- Serialize a filtered attribute list. -/
def serializeAttrs : List (List Char × List Char) → List Char
  | [] => []
  | (n, v) :: rest =>
    (' ' :: n) ++ ('=' :: '"' :: expandChars escAttrChar v) ++ ('"' :: serializeAttrs rest)

/-- Serialize one sanitized token back to markup text. -/
def serializeTok : HtmlTok → List Char
  | .text s => expandChars escTextChar s
  | .tagOpen name attrs => '<' :: (name ++ serializeAttrs attrs ++ ['>'])
  | .tagClose name => '<' :: '/' :: (name ++ ['>'])

/-- Serialize a token list. -/
def serializeToks : List HtmlTok → List Char
  | [] => []
  | t :: rest => serializeTok t ++ serializeToks rest

/-- Sanitizer core: keep text runs; keep tags whose name is on the tag
allow-list, with their attributes filtered against the attribute
allow-list; drop every other tag. -/
def filterToks : List HtmlTok → List HtmlTok
  | [] => []
  | .text s :: rest => .text s :: filterToks rest
  | .tagOpen name attrs :: rest =>
    if name ∈ allowedTags then
      .tagOpen name (attrs.filter (fun a => a.1 ∈ allowedAttrs)) :: filterToks rest
    else filterToks rest
  | .tagClose name :: rest =>
    if name ∈ allowedTags then .tagClose name :: filterToks rest
    else filterToks rest

/-- Modelled from the spec: the Sanitizer (spec section 4.5). The
implementation calls the external `DOMPurify.sanitize` (script.js lines
215-219), whose code is not under this repository's sources; the model
tokenizes, filters both tags and attributes against the fixed allow-lists,
and reserializes with text and attribute values escaped. -/
def sanitizeHtml (s : List Char) : List Char :=
  serializeToks (filterToks (tokenizeF s.length s))

/-- The full `renderMarkdown(text)` with the markup and sanitizer libraries present
(script.js lines 143-223), parameterized by the external `marked.parse` as
an opaque function `parse` and by the wall clock `now`: normalize alias
tags, extract reasoning blocks to placeholders, parse the remainder,
reinject each block's HTML over its placeholder (the `<p>`-wrapped form
first, then the bare form, first occurrence each), and sanitize the
combined result. -/
def renderMarkdown (parse : List Char → List Char) (now : Int)
    (text : List Char) : List Char :=
  let er := extractScan 0 (normalizeThink text)
  let html2 := (er.2.enum).foldl
    (fun h ib =>
      let bh := blockHtmlOf parse now ib.1 ib.2
      replaceFirst (markerChars ib.1) bh
        (replaceFirst ("<p>".data ++ markerChars ib.1 ++ "</p>".data) bh h))
    (parse er.1)
  sanitizeHtml html2

-- ### Link classification (script.js lines 99-134)

/-- The URL schemes classified as external (script.js line 117). -/
def externalProtocols : List (List Char) :=
  ["http://", "https://", "ftp://", "ftps://", "sftp://"].map String.data

/-- The URL schemes that open apps (script.js line 121). -/
def appProtocols : List (List Char) :=
  ["mailto:", "tel:", "sms:", "whatsapp:", "skype:"].map String.data

/-- JS `toLowerCase` over a character list. -/
def lowerData (s : List Char) : List Char := s.map Char.toLower

/-- The test `externalProtocols.some(p => safeUrl.toLowerCase().startsWith(p))`. -/
def isExternalUrl (url : String) : Bool :=
  externalProtocols.any (fun p => p.isPrefixOf (lowerData (escapeHTMLl url.data)))

/-- The test `appProtocols.some(p => safeUrl.toLowerCase().startsWith(p))`. -/
def isAppUrl (url : String) : Bool :=
  appProtocols.any (fun p => p.isPrefixOf (lowerData (escapeHTMLl url.data)))

/-- The three link classes. -/
inductive LinkClass where
  | external
  | app
  | internal
deriving DecidableEq, Repr

/-- The three-way link classification (script.js lines 124-133): external
protocols first, then app protocols, defaulting to internal. -/
def classifyLink (url : String) : LinkClass :=
  if isExternalUrl url then .external
  else if isAppUrl url then .app
  else .internal

/-- The custom `renderer.link` (script.js lines 99-134) on string arguments: escape
the URL, default empty link text to the escaped URL, build the optional
title attribute, and emit one of three output shapes by classification. -/
def renderLink (url : String) (title : Option String) (text : String) : List Char :=
  let safeUrl := escapeHTMLl url.data
  let safeText := if text = "" then safeUrl else text.data
  let safeTitleAttr :=
    match title with
    | some t => if t ≠ "" then " title=\"".data ++ escapeHTMLl t.data ++ ['"'] else []
    | none => []
  if isExternalUrl url then
    "<a href=\"".data ++ safeUrl
      ++ "\" class=\"secure-link\" data-external=\"true\"".data
      ++ safeTitleAttr ++ ['>'] ++ safeText
      ++ "<svg class=\"external-link-icon\" width=\"12\" height=\"12\" viewBox=\"0 0 24 24\" fill=\"none\" stroke=\"currentColor\" stroke-width=\"2\"><path d=\"M18 13v6a2 2 0 0 1-2 2H5a2 2 0 0 1-2-2V8a2 2 0 0 1 2-2h6\"/><polyline points=\"15 3 21 3 21 9\"/><line x1=\"10\" y1=\"14\" x2=\"21\" y2=\"3\"/></svg></a>".data
  else if isAppUrl url then
    "<a href=\"".data ++ safeUrl ++ "\" class=\"app-link\"".data
      ++ safeTitleAttr ++ ['>'] ++ safeText
      ++ "<svg class=\"app-link-icon\" width=\"12\" height=\"12\" viewBox=\"0 0 24 24\" fill=\"none\" stroke=\"currentColor\" stroke-width=\"2\"><rect x=\"5\" y=\"2\" width=\"14\" height=\"20\" rx=\"2\" ry=\"2\"/><line x1=\"12\" y1=\"18\" x2=\"12.01\" y2=\"18\"/></svg></a>".data
  else
    "<a href=\"".data ++ safeUrl ++ "\"".data ++ safeTitleAttr ++ ['>']
      ++ safeText ++ "</a>".data

-- ### Finalizer duration bake (script.js lines 2312-2318)

/-- Attempt to match the bake regex `<think start="([^"]*)">` at the head
of `s` (script.js line 2314): the literal `<think start="`, a greedy run
of non-quote characters, then `">`. -/
def matchBake (s : List Char) : Option (List Char × List Char) :=
  if "<think start=\"".data.isPrefixOf s then
    let s1 := s.drop 14
    let ts := s1.takeWhile (fun c => c ≠ '"')
    match s1.drop ts.length with
    | '"' :: '>' :: r => some (ts, r)
    | _ => none
  else none

/-- The replacement tag `<think start="ts" duration="d">` where `d` is
`Math.round((now - parseInt(ts)) / 1000)` (script.js lines 2315-2317). -/
def bakedTag (now : Int) (ts : List Char) : List Char :=
  "<think start=\"".data ++ ts ++ "\" duration=\"".data ++
    (match jsParseInt ts with
     | some t => jsIntToChars (jsRoundDiv1000 (now - t))
     | none => "NaN".data) ++ "\">".data

/-- Fueled scanner for the global bake replace of
`finalizeStreamingMessage` (script.js line 2314). -/
def bakeScanF (now : Int) : Nat → List Char → List Char
  | 0, s => s
  | _ + 1, [] => []
  | fuel + 1, c :: rest =>
    match matchBake (c :: rest) with
    | some (ts, r) => bakedTag now ts ++ bakeScanF now fuel r
    | none => c :: bakeScanF now fuel rest

/-- The duration bake of `finalizeStreamingMessage` over the raw buffer:
rewrite every `<think start="...">` tag (no duration attribute yet) to
carry the elapsed duration. -/
def finalizeBake (now : Int) (s : List Char) : List Char :=
  bakeScanF now s.length s

-- ### Diff-preserving merge (script.js lines 2254-2302) and session state

/-- The rendered view of one reasoning block in the live render target:
its stable identity (`data-thought-id`), its `thinking-active` class, its
`expanded` class, its label and its inner rendered content. -/
structure BlockView where
  id : Nat
  active : Bool
  expanded : Bool
  label : List Char
  content : List Char
deriving DecidableEq, Repr

/-- The block views produced by a full render of buffer `text`: block `i`
is active and expanded exactly when it is still open (script.js line 180),
with the computed label and independently parsed inner content. -/
def renderBlocks (parse : List Char → List Char) (now : Int) (text : List Char) :
    List BlockView :=
  ((extractScan 0 (normalizeThink text)).2.enum).map
    (fun ib => ⟨ib.1, !ib.2.closed, !ib.2.closed,
      durationText now ib.2.startAttr ib.2.durAttr ib.2.closed, parse ib.2.content⟩)

/-- The query for `.thought-block.thinking-active`: the first block
carrying the active class. -/
def findActive (bs : List BlockView) : Option BlockView :=
  bs.find? (fun b => b.active)

/-- The fast path of the merge: patch the inner content of the first
active block in place, leaving everything else (including every
`expanded` flag) untouched (script.js lines 2267-2281). -/
def fastUpdate (content : List Char) : List BlockView → List BlockView
  | [] => []
  | b :: rest =>
    if b.active then { b with content := content } :: rest
    else b :: fastUpdate content rest

/-- The full path of the merge: collect the identities currently marked
expanded, then re-apply the expanded class to exactly those identities in
the new render and replace the whole target (script.js lines 2283-2298). -/
def fullMerge (cur new : List BlockView) : List BlockView :=
  let expandedIds := (cur.filter (fun b => b.expanded)).map (fun b => b.id)
  new.map (fun b => if b.id ∈ expandedIds then { b with expanded := true } else b)

/-- The diff-preserving merge of `streamToMessage` (script.js lines
2261-2298): the fast path runs exactly when both the previous and the new
render have an active block and their identities agree; otherwise the full
path replaces the target while restoring expanded identities. -/
def mergeBlocks (cur new : List BlockView) : List BlockView :=
  match findActive new, findActive cur with
  | some nb, some cb => if nb.id = cb.id then fastUpdate nb.content cur else fullMerge cur new
  | _, _ => fullMerge cur new

/-- The streaming-session state touched by `finalizeStreamingMessage`:
whether a stream target is attached (`currentStreamContent` and
`currentStreamInner` non-null), the block views of the target, the saved
message list, and `currentFullText`. -/
structure ChatState where
  streamOpen : Bool
  dom : List BlockView
  messages : List (List Char)
  currentFullText : List Char
deriving DecidableEq, Repr

/-- The method `streamToMessage(fullText)` at the state level (script.js lines
2254-2302): a no-op when no stream target is attached; otherwise record
`currentFullText` and merge the new render into the target. -/
def streamToMessageSt (parse : List Char → List Char) (now : Int)
    (fullText : List Char) (st : ChatState) : ChatState :=
  if st.streamOpen then
    { st with currentFullText := fullText,
              dom := mergeBlocks st.dom (renderBlocks parse now fullText) }
  else st

/-- The method `finalizeStreamingMessage(fullText)` at the state level (script.js
lines 2305-2346): a no-op when no stream target is attached; otherwise
bake durations into the raw buffer, run one last render over it, append
the baked buffer to the saved messages, and clear the streaming state. -/
def finalizeStreamingMessage (parse : List Char → List Char) (now : Int)
    (fullText : List Char) (st : ChatState) : ChatState :=
  if st.streamOpen then
    let baked := finalizeBake now fullText
    let st1 := streamToMessageSt parse now baked st
    { st1 with messages := st1.messages ++ [baked],
               streamOpen := false,
               currentFullText := [] }
  else st

-- ### Lemmas about the diff-preserving merge

/-- The fast path touches only the patched block's content: every block of
the result corresponds to a block of the input with the same identity and
the same expanded flag. -/
theorem fastUpdate_mem (content : List Char) :
    ∀ (l : List BlockView) b', b' ∈ fastUpdate content l →
      ∃ b ∈ l, b'.id = b.id ∧ b'.expanded = b.expanded := by
  intro l
  induction l with
  | nil => intro b' h; simp [fastUpdate] at h
  | cons b rest ih =>
    intro b' h
    by_cases hb : b.active
    · simp only [fastUpdate, if_pos hb, List.mem_cons] at h
      rcases h with h | h
      · exact ⟨b, List.mem_cons_self b rest, by subst h; exact ⟨rfl, rfl⟩⟩
      · exact ⟨b', List.mem_cons_of_mem b h, rfl, rfl⟩
    · simp only [fastUpdate, if_neg hb, List.mem_cons] at h
      rcases h with h | h
      · exact ⟨b, List.mem_cons_self b rest, by subst h; exact ⟨rfl, rfl⟩⟩
      · obtain ⟨b₀, hb₀, hid, hexp⟩ := ih b' h
        exact ⟨b₀, List.mem_cons_of_mem b hb₀, hid, hexp⟩

/-- The full path restores the expanded flag of every identity that was
expanded before. -/
theorem fullMerge_expanded (cur new : List BlockView) (i : Nat)
    (hexp : ∃ b ∈ cur, b.id = i ∧ b.expanded) :
    ∀ b' ∈ fullMerge cur new, b'.id = i → b'.expanded := by
  intro b' hb' hid
  obtain ⟨b, hb, rfl⟩ := List.mem_map.mp hb'
  obtain ⟨bc, hbc, hbci, hbce⟩ := hexp
  by_cases hmem : b.id ∈ (cur.filter (fun x => x.expanded)).map (fun x => x.id)
  · simp only [fullMerge, if_pos hmem]
  · exfalso
    apply hmem
    have hbid : b.id = i := by
      by_cases h2 : b.id ∈ (cur.filter (fun x => x.expanded)).map (fun x => x.id)
      · exact absurd h2 hmem
      · simpa [fullMerge, if_neg h2] using hid
    refine List.mem_map.mpr ⟨bc, List.mem_filter.mpr ⟨hbc, by simpa using hbce⟩, ?_⟩
    rw [hbci, hbid]

/-- C1: Expanded-state preservation across re-renders: for every
reasoning-block identity present in both the previous render (`cur`) and
the new render (`new`) of the same stream, if that identity was marked
expanded before the merge then it is marked expanded after it, regardless
of whether the fast in-place path or the full replace-and-restore path of
`mergeBlocks` was used. -/
theorem C1_expanded_state_preservation
    (cur new : List BlockView) (i : Nat)
    (hnodup : (cur.map (fun b => b.id)).Nodup)
    (_hold : i ∈ cur.map (fun b => b.id))
    (_hnew : i ∈ new.map (fun b => b.id))
    (hexp : ∃ b ∈ cur, b.id = i ∧ b.expanded) :
    ∀ b' ∈ mergeBlocks cur new, b'.id = i → b'.expanded := by
  intro b' hb' hid
  rcases hfn : findActive new with _ | nb
  · simp only [mergeBlocks, hfn] at hb'
    exact fullMerge_expanded cur new i hexp b' hb' hid
  · rcases hfc : findActive cur with _ | cb
    · simp only [mergeBlocks, hfn, hfc] at hb'
      exact fullMerge_expanded cur new i hexp b' hb' hid
    · simp only [mergeBlocks, hfn, hfc] at hb'
      by_cases heq : nb.id = cb.id
      · rw [if_pos heq] at hb'
        obtain ⟨b, hb, hid', hexp'⟩ := fastUpdate_mem nb.content cur b' hb'
        obtain ⟨bc, hbc, hbci, hbce⟩ := hexp
        have hbeq : b = bc :=
          List.inj_on_of_nodup_map hnodup hb hbc (by rw [← hid', hid, hbci])
        rw [hexp', hbeq]
        exact hbce
      · rw [if_neg heq] at hb'
        exact fullMerge_expanded cur new i hexp b' hb' hid

/-- Concrete render states for the C1 witness: block 1 is expanded in the
previous render, block 0 is the active streaming block in both renders, so
the merge takes the fast path. -/
def curW : List BlockView :=
  [⟨0, true, true, [], []⟩, ⟨1, false, true, [], []⟩]

/-- New render for the C1 witness. -/
def newW : List BlockView :=
  [⟨0, true, true, [], ['x']⟩, ⟨1, false, false, [], []⟩]

theorem C1_expanded_state_preservation_witness :
    ((curW.map (fun b => b.id)).Nodup ∧ 1 ∈ curW.map (fun b => b.id) ∧
      1 ∈ newW.map (fun b => b.id) ∧ (∃ b ∈ curW, b.id = 1 ∧ b.expanded)) ∧
    (∀ b' ∈ mergeBlocks curW newW, b'.id = 1 → b'.expanded) :=
  ⟨⟨by decide, by decide, by decide, by decide⟩,
   C1_expanded_state_preservation curW newW 1 (by decide) (by decide)
     (by decide) (by decide)⟩

-- ### Lemmas about the duration-bake scanner

theorem bakeScanF_nil (now : Int) : ∀ f, bakeScanF now f [] = []
  | 0 => rfl
  | _ + 1 => rfl

/-- What a successful bake-regex match captures: the timestamp capture is
quote-free and the tag consumes 16 + |ts| characters. -/
theorem matchBake_some_spec (s ts r : List Char) (h : matchBake s = some (ts, r)) :
    (∀ c ∈ ts, c ≠ '"') ∧ r.length + 16 + ts.length = s.length := by
  by_cases hpre : "<think start=\"".data.isPrefixOf s
  · simp only [matchBake, if_pos hpre] at h
    split at h
    · rename_i r' heq
      injection h with h1
      injection h1 with hts hr
      subst hts
      subst hr
      constructor
      · intro c hc
        have := List.mem_takeWhile_imp hc
        simpa using this
      · have hplen : ("<think start=\"".data).length ≤ s.length :=
          (List.isPrefixOf_iff_prefix.mp hpre).length_le
        have h14 : (14 : Nat) ≤ s.length := by simpa using hplen
        have hts_le : ((s.drop 14).takeWhile (fun c => c ≠ '"')).length ≤ (s.drop 14).length :=
          (List.takeWhile_prefix _).length_le
        have hlen := congrArg List.length heq
        simp only [List.length_drop, List.length_cons] at hlen hts_le ⊢
        omega
    · exact absurd h (by simp)
  · simp only [matchBake, if_neg hpre] at h
    exact absurd h (by simp)

theorem bakeScanF_congr (now : Int) :
    ∀ f₁ f₂ s, s.length ≤ f₁ → s.length ≤ f₂ →
      bakeScanF now f₁ s = bakeScanF now f₂ s := by
  intro f₁
  induction f₁ with
  | zero =>
    intro f₂ s hs _
    have : s = [] := List.eq_nil_of_length_eq_zero (Nat.le_zero.mp hs)
    subst this
    simp [bakeScanF_nil]
  | succ f ih =>
    intro f₂ s hs₁ hs₂
    match s with
    | [] => simp [bakeScanF_nil]
    | c :: rest =>
      obtain ⟨g, rfl⟩ : ∃ g, f₂ = g + 1 := by
        cases f₂ with
        | zero => simp at hs₂
        | succ g => exact ⟨g, rfl⟩
      simp only [List.length_cons] at hs₁ hs₂
      cases hm : matchBake (c :: rest) with
      | some p =>
        obtain ⟨ts, r⟩ := p
        have hspec := (matchBake_some_spec _ _ _ hm).2
        simp only [List.length_cons] at hspec
        simp only [bakeScanF, hm]
        rw [ih g r (by omega) (by omega)]
      | none =>
        simp only [bakeScanF, hm]
        rw [ih g rest (by omega) (by omega)]

theorem finalizeBake_nil (now : Int) : finalizeBake now [] = [] := rfl

theorem finalizeBake_some (now : Int) (s ts r : List Char)
    (h : matchBake s = some (ts, r)) :
    finalizeBake now s = bakedTag now ts ++ finalizeBake now r := by
  cases s with
  | nil =>
    rw [show matchBake ([] : List Char) = none from rfl] at h
    simp at h
  | cons c rest =>
    have hspec := (matchBake_some_spec _ _ _ h).2
    simp only [List.length_cons] at hspec
    show bakeScanF now (rest.length + 1) (c :: rest) = _
    simp only [bakeScanF, h]
    congr 1
    exact bakeScanF_congr now _ _ _ (by omega) le_rfl

theorem finalizeBake_none (now : Int) (c : Char) (rest : List Char)
    (h : matchBake (c :: rest) = none) :
    finalizeBake now (c :: rest) = c :: finalizeBake now rest := by
  show bakeScanF now (rest.length + 1) (c :: rest) = _
  simp only [bakeScanF, h]
  rfl

/-- A buffer that does not begin with `<` cannot begin a bake match. -/
theorem matchBake_none_of_head (s : List Char) (c : Char)
    (hh : s.head? = some c) (hc : c ≠ '<') : matchBake s = none := by
  cases s with
  | nil => rfl
  | cons x rest =>
    injection hh with hh
    simp only [matchBake]
    rw [if_neg]
    intro hpre
    obtain ⟨t, ht⟩ := List.isPrefixOf_iff_prefix.mp hpre
    have hx : '<' = x := by
      have h2 := congrArg List.head? ht
      simpa using h2
    apply hc
    rw [← hh]
    exact hx.symm

/-- The scanner walks through a region at whose positions no bake match
starts, copying it verbatim. -/
theorem bakeScan_through (now : Int) :
    ∀ (n : Nat) (a X : List Char), a.length ≤ n →
      (∀ m, m < a.length → matchBake (a.drop m ++ X) = none) →
      finalizeBake now (a ++ X) = a ++ finalizeBake now X := by
  intro n
  induction n with
  | zero =>
    intro a X ha _
    have : a = [] := List.eq_nil_of_length_eq_zero (Nat.le_zero.mp ha)
    subst this
    simp
  | succ n ih =>
    intro a X ha h
    cases a with
    | nil => simp
    | cons c a' =>
      have h0 : matchBake (c :: (a' ++ X)) = none := by
        have := h 0 (by simp)
        simpa using this
      rw [show ((c :: a') ++ X) = c :: (a' ++ X) from rfl,
          finalizeBake_none now _ _ h0,
          ih a' X (by simpa using ha)
            (fun m hm => by
              have := h (m + 1) (by simpa using Nat.succ_lt_succ hm)
              simpa using this)]
      rfl

/-- A `takeWhile` run stops exactly at the first failing character. -/
theorem takeWhile_append_stop (p : Char → Bool) :
    ∀ (a : List Char) (q : Char) (X : List Char),
      (∀ c ∈ a, p c = true) → p q = false →
      (a ++ q :: X).takeWhile p = a := by
  intro a
  induction a with
  | nil =>
    intro q X _ hq
    simp [List.takeWhile_cons, hq]
  | cons c a' ih =>
    intro q X hall hq
    have hc := hall c (List.mem_cons_self c a')
    simp only [List.cons_append, List.takeWhile_cons, hc]
    rw [ih q X (fun x hx => hall x (List.mem_cons_of_mem c hx)) hq]
    simp

/-- Computing the bake match at a well-formed un-baked opening tag. -/
theorem matchBake_at_tag (ts X : List Char) (hts : ∀ c ∈ ts, c ≠ '"') :
    matchBake ("<think start=\"".data ++ (ts ++ '"' :: '>' :: X)) = some (ts, X) := by
  simp only [matchBake,
    if_pos (List.isPrefixOf_iff_prefix.mpr
      (List.prefix_append "<think start=\"".data (ts ++ '"' :: '>' :: X)))]
  rw [show (14 : Nat) = ("<think start=\"".data).length from rfl, List.drop_left,
      takeWhile_append_stop _ ts '"' ('>' :: X)
        (fun c hc => by simpa using hts c hc) (by decide),
      List.drop_left]
  rfl

/-- The head of a concatenation whose left part has a head. -/
theorem head?_append_some {l l' : List Char} {c : Char} (h : l.head? = some c) :
    (l ++ l').head? = some c := by
  cases l with
  | nil => simp at h
  | cons a t => simpa using h

theorem digitChar_mem : ∀ k, k < 10 → Nat.digitChar k ∈ "0123456789".data := by decide

theorem natDigitsF_mem : ∀ f n c, c ∈ natDigitsF f n → c ∈ "0123456789".data := by
  intro f
  induction f with
  | zero => intro n c h; simp [natDigitsF] at h
  | succ f ih =>
    intro n c h
    by_cases hn : n < 10
    · simp only [natDigitsF, if_pos hn, List.mem_singleton] at h
      subst h
      exact digitChar_mem n hn
    · simp only [natDigitsF, if_neg hn, List.mem_append, List.mem_singleton] at h
      rcases h with h | h
      · exact ih _ _ h
      · subst h
        exact digitChar_mem _ (Nat.mod_lt _ (by omega))

theorem natToChars_ne_nil (n : Nat) : natToChars n ≠ [] := by
  unfold natToChars natDigitsF
  by_cases hn : n < 10 <;> simp [hn]

theorem jsIntToChars_mem (i : Int) (c : Char) (h : c ∈ jsIntToChars i) :
    c ∈ '-' :: "0123456789".data := by
  unfold jsIntToChars at h
  by_cases hi : i < 0
  · simp only [if_pos hi, List.mem_cons] at h
    rcases h with h | h
    · simp [h]
    · exact List.mem_cons_of_mem _ (natDigitsF_mem _ _ _ h)
  · simp only [if_neg hi] at h
    exact List.mem_cons_of_mem _ (natDigitsF_mem _ _ _ h)

theorem jsIntToChars_ne_nil (i : Int) : jsIntToChars i ≠ [] := by
  unfold jsIntToChars
  by_cases hi : i < 0
  · simp [hi]
  · simp [hi, natToChars_ne_nil]

/-- The shape of an opening tag that already carries a baked duration. -/
def tagBaked (ts d : List Char) : List Char :=
  "<think start=\"".data ++ ts ++ "\" duration=\"".data ++ d ++ "\">".data

/-- The duration string the bake writes: the rounded elapsed seconds, or
`NaN` when the start timestamp does not parse. -/
def durChars (now : Int) (ts : List Char) : List Char :=
  match jsParseInt ts with
  | some t => jsIntToChars (jsRoundDiv1000 (now - t))
  | none => "NaN".data

theorem bakedTag_eq_tagBaked (now : Int) (ts : List Char) :
    bakedTag now ts = tagBaked ts (durChars now ts) := rfl

theorem durChars_ne_nil (now : Int) (ts : List Char) : durChars now ts ≠ [] := by
  unfold durChars
  cases jsParseInt ts with
  | none => exact (by decide : ("NaN".data : List Char) ≠ [])
  | some t => exact jsIntToChars_ne_nil _

theorem durChars_head_ne_gt (now : Int) (ts : List Char) :
    ∀ x, (durChars now ts).head? = some x → x ≠ '>' := by
  unfold durChars
  cases jsParseInt ts with
  | none => exact (by decide : ∀ x : Char, ("NaN".data).head? = some x → x ≠ '>')
  | some t =>
    intro x hx
    have hmem : x ∈ jsIntToChars (jsRoundDiv1000 (now - t)) :=
      List.mem_of_mem_head? hx
    exact (by decide : ∀ y : Char, y ∈ '-' :: "0123456789".data → y ≠ '>') x
      (jsIntToChars_mem _ _ hmem)

theorem durChars_no_lt (now : Int) (ts : List Char) : '<' ∉ durChars now ts := by
  unfold durChars
  cases jsParseInt ts with
  | none => exact (by decide : '<' ∉ ("NaN".data : List Char))
  | some t =>
    intro h
    exact (by decide : ∀ y : Char, y ∈ '-' :: "0123456789".data → y ≠ '<') '<'
      (jsIntToChars_mem _ _ h) rfl

/-- No bake match starts at any position inside an already-baked opening
tag, whatever follows it: the bake scanner leaves baked tags untouched. -/
theorem matchBake_none_in_tagBaked (ts d : List Char)
    (hts : ∀ c ∈ ts, c ≠ '"')
    (hd0 : d ≠ []) (hdgt : ∀ x, d.head? = some x → x ≠ '>') (hdlt : '<' ∉ d) :
    ∀ m, m < (tagBaked ts d).length → ∀ X,
      matchBake ((tagBaked ts d).drop m ++ X) = none := by
  have hP14 : ("<think start=\"".data).length = 14 := rfl
  have hM12 : ("\" duration=\"".data).length = 12 := rfl
  have hT2 : ("\">".data).length = 2 := rfl
  have htag : tagBaked ts d
      = "<think start=\"".data ++ (ts ++ ("\" duration=\"".data ++ (d ++ "\">".data))) := by
    simp [tagBaked]
  have hlen : (tagBaked ts d).length = 28 + ts.length + d.length := by
    rw [htag]
    simp only [List.length_append, hP14, hM12, hT2]
    omega
  intro m hm X
  rcases Nat.lt_or_ge m 14 with h14 | h14
  · rcases Nat.eq_zero_or_pos m with rfl | hpos
    · -- m = 0: the prefix matches but the quote-run is followed by a space
      rw [htag, List.drop_zero, List.append_assoc]
      simp only [matchBake,
        if_pos (List.isPrefixOf_iff_prefix.mpr (List.prefix_append _ _))]
      rw [show (14 : Nat) = ("<think start=\"".data).length from rfl, List.drop_left]
      rw [show (ts ++ ("\" duration=\"".data ++ (d ++ "\">".data))) ++ X
            = ts ++ ('"' :: (" duration=\"".data ++ (d ++ "\">".data) ++ X)) from by
              simp,
          takeWhile_append_stop _ ts '"' _
            (fun c hc => by simpa using hts c hc) (by decide),
          List.drop_left]
      rfl
    · -- 1 ≤ m ≤ 13: the head character is not `<`
      have hdropP : (tagBaked ts d).drop m
          = ("<think start=\"".data).drop m
              ++ (ts ++ ("\" duration=\"".data ++ (d ++ "\">".data))) := by
        rw [htag, List.drop_append_eq_append_drop, hP14,
            show m - 14 = 0 by omega, List.drop_zero]
      have hget : ∀ k, k < 14 → 0 < k →
          ∃ c, (("<think start=\"".data).drop k).head? = some c ∧ c ≠ '<' := by decide
      obtain ⟨c, hc1, hc2⟩ := hget m h14 hpos
      refine matchBake_none_of_head _ c ?_ hc2
      rw [hdropP, List.append_assoc]
      exact head?_append_some hc1
  · rcases Nat.lt_or_ge m (14 + ts.length) with hts14 | hts14
    · -- inside the timestamp: only the exact crossing can look like a match
      have hj : m - 14 < ts.length := by omega
      have hdrop : (tagBaked ts d).drop m
          = ts.drop (m - 14) ++ ("\" duration=\"".data ++ (d ++ "\">".data)) := by
        rw [htag, List.drop_append_eq_append_drop, hP14,
            List.drop_eq_nil_of_le (by omega), List.nil_append,
            List.drop_append_eq_append_drop,
            show m - 14 - ts.length = 0 by omega, List.drop_zero]
      set u := ts.drop (m - 14) with hu_def
      have hu_noq : ∀ c ∈ u, c ≠ '"' := fun c hc =>
        hts c ((List.drop_suffix _ _).sublist.subset hc)
      have htarget : (tagBaked ts d).drop m ++ X
          = u ++ ('"' :: (" duration=\"".data ++ (d ++ "\">".data) ++ X)) := by
        rw [hdrop]
        simp
      rw [htarget]
      set Z := " duration=\"".data ++ (d ++ "\">".data) ++ X with hZ_def
      by_cases hpre : ("<think start=\"".data).isPrefixOf (u ++ '"' :: Z)
      · obtain ⟨t, ht⟩ := List.isPrefixOf_iff_prefix.mp hpre
        rcases Nat.lt_or_ge u.length 14 with hu14 | hu14
        · -- the quote after `u` aligns with the quote of the pattern: u.length = 13
          have hq : (u ++ '"' :: Z)[u.length]? = some '"' := by
            rw [List.getElem?_append_right le_rfl]
            simp
          have hPq : ("<think start=\"".data)[u.length]? = some '"' := by
            rw [← ht, List.getElem?_append_left (by omega)] at hq
            exact hq
          have hu13 : u.length = 13 := by
            have h13 : ∀ k, k < 14 → ("<think start=\"".data)[k]? = some '"' → k = 13 := by
              decide
            exact h13 _ (by omega) hPq
          have hu_eq : u = ("<think start=\"".data).take 13 := by
            have e1 : (u ++ '"' :: Z).take u.length = u := by simp
            rw [← ht, List.take_append_of_le_length (by omega)] at e1
            rw [← e1, hu13]
          have hPsplit : ("<think start=\"".data).take 13 ++ '"' :: Z
              = "<think start=\"".data ++ Z := by
            rw [show ('"' :: Z) = ['"'] ++ Z from rfl, ← List.append_assoc]
            congr 1
          rw [hu_eq, hPsplit]
          -- the match attempt at the crossing fails at the duration value
          simp only [matchBake,
            if_pos (List.isPrefixOf_iff_prefix.mpr (List.prefix_append _ _))]
          rw [show (14 : Nat) = ("<think start=\"".data).length from rfl, List.drop_left]
          rw [show Z = " duration=".data ++ ('"' :: (d ++ "\">".data ++ X)) from by
                rw [hZ_def]; simp,
              takeWhile_append_stop _ (" duration=".data) '"' _
                (by decide) (by decide),
              List.drop_left]
          rcases d with _ | ⟨e, d'⟩
          · exact absurd rfl hd0
          · have he : e ≠ '>' := hdgt e rfl
            split
            · rename_i r heq
              rw [List.cons_append, List.cons_append] at heq
              injection heq with h1 h2
              injection h2 with h3 h4
              exact absurd h3 he
            · rfl
        · -- u would have to contain the quote of the pattern: impossible
          exfalso
          have hPq : '"' ∈ u := by
            have e1 : u.take 14 = "<think start=\"".data := by
              have e2 : (u ++ '"' :: Z).take 14 = ("<think start=\"".data ++ t).take 14 := by
                rw [ht]
              rw [List.take_append_of_le_length hu14,
                  List.take_append_of_le_length (by omega),
                  show (14 : Nat) = ("<think start=\"".data).length from rfl,
                  List.take_length] at e2
              exact e2
            have : '"' ∈ u.take 14 := by
              rw [e1]
              decide
            exact (List.take_sublist _ _).subset this
          exact hu_noq '"' hPq rfl
      · simp only [matchBake, if_neg hpre]
    · -- inside `" duration="`, the value, or `">`: the head is not `<`
      have hj : m - 14 - ts.length
          < ("\" duration=\"".data ++ (d ++ "\">".data)).length := by
        simp only [List.length_append, hM12, hT2]
        omega
      have hdrop : (tagBaked ts d).drop m
          = ("\" duration=\"".data ++ (d ++ "\">".data)).drop (m - 14 - ts.length) := by
        rw [htag, List.drop_append_eq_append_drop, hP14,
            List.drop_eq_nil_of_le (by omega), List.nil_append,
            List.drop_append_eq_append_drop,
            List.drop_eq_nil_of_le (by omega), List.nil_append]
      obtain ⟨c, hc⟩ : ∃ c,
          ((("\" duration=\"".data ++ (d ++ "\">".data)).drop (m - 14 - ts.length)).head?)
            = some c := by
        rw [List.head?_drop]
        exact ⟨_, List.getElem?_eq_getElem hj⟩
      have hmem : c ∈ "\" duration=\"".data ++ (d ++ "\">".data) := by
        rw [List.head?_drop] at hc
        exact List.getElem?_mem hc
      have hc2 : c ≠ '<' := by
        rcases List.mem_append.mp hmem with h | h
        · exact (by decide : ∀ y : Char, y ∈ "\" duration=\"".data → y ≠ '<') c h
        · rcases List.mem_append.mp h with h | h
          · intro hcc
            subst hcc
            exact hdlt h
          · exact (by decide : ∀ y : Char, y ∈ "\">".data → y ≠ '<') c h
      refine matchBake_none_of_head _ c ?_ hc2
      rw [hdrop]
      exact head?_append_some hc

/-- The bake scanner copies an already-baked tag verbatim and continues. -/
theorem finalizeBake_through_tagBaked (now : Int) (ts d X : List Char)
    (hts : ∀ c ∈ ts, c ≠ '"') (hd0 : d ≠ [])
    (hdgt : ∀ x, d.head? = some x → x ≠ '>') (hdlt : '<' ∉ d) :
    finalizeBake now (tagBaked ts d ++ X) = tagBaked ts d ++ finalizeBake now X :=
  bakeScan_through now (tagBaked ts d).length _ X le_rfl
    (fun m hm => matchBake_none_in_tagBaked ts d hts hd0 hdgt hdlt m hm X)

/-- An un-baked opening reasoning tag as it appears in the raw buffer. -/
def thinkOpenTag (ts : List Char) : List Char :=
  "<think start=\"".data ++ ts ++ "\">".data

theorem thinkOpenTag_append (ts X : List Char) :
    thinkOpenTag ts ++ X = "<think start=\"".data ++ (ts ++ '"' :: '>' :: X) := by
  simp [thinkOpenTag]

/-- Computing the bake over `pre ++ <think start="ts"> ++ X` when no bake
match starts inside `pre`: the tag is rewritten to carry the computed
duration, and scanning continues over `X` alone. -/
theorem finalizeBake_calc (now : Int) (pre ts X : List Char)
    (hpre : ∀ m, m < pre.length →
      matchBake (pre.drop m ++ (thinkOpenTag ts ++ X)) = none)
    (hts : ∀ c ∈ ts, c ≠ '"') :
    finalizeBake now (pre ++ (thinkOpenTag ts ++ X))
      = pre ++ (bakedTag now ts ++ finalizeBake now X) := by
  rw [bakeScan_through now pre.length pre (thinkOpenTag ts ++ X) le_rfl hpre,
      thinkOpenTag_append,
      finalizeBake_some now _ ts X (matchBake_at_tag ts X hts)]

/-- A buffer at none of whose positions a bake match starts is left
unchanged by the bake. -/
theorem finalizeBake_id_of_none (now : Int) (X : List Char)
    (hX : ∀ m, m < X.length → matchBake (X.drop m) = none) :
    finalizeBake now X = X := by
  have h := bakeScan_through now X.length X [] le_rfl
    (fun m hm => by simpa using hX m hm)
  simpa [finalizeBake_nil] using h

/-- C3: Idempotence of finalize: invoking `finalizeStreamingMessage` twice
on the same stream session yields the same state as invoking it once — the
first invocation detaches the stream target, so the second is a guarded
no-op that appends nothing. Moreover the bake rewrite never matches an
opening tag that already carries a baked duration attribute: the bake
scanner copies such a tag verbatim, recomputing nothing for it. -/
theorem C3_finalize_idempotent
    (parse : List Char → List Char) (now₁ now₂ : Int) (t₁ t₂ : List Char)
    (st : ChatState) (ts d X : List Char)
    (hts : ∀ c ∈ ts, c ≠ '"') (hd0 : d ≠ [])
    (hdgt : ∀ x, d.head? = some x → x ≠ '>') (hdlt : '<' ∉ d) :
    finalizeStreamingMessage parse now₂ t₂
        (finalizeStreamingMessage parse now₁ t₁ st)
      = finalizeStreamingMessage parse now₁ t₁ st ∧
    finalizeBake now₂ (tagBaked ts d ++ X) = tagBaked ts d ++ finalizeBake now₂ X := by
  have hclosed : ∀ (n : Int) (t : List Char) (s : ChatState), s.streamOpen = false →
      finalizeStreamingMessage parse n t s = s := by
    intro n t s hs
    simp [finalizeStreamingMessage, hs]
  refine ⟨?_, finalizeBake_through_tagBaked now₂ ts d X hts hd0 hdgt hdlt⟩
  by_cases h : st.streamOpen
  · have h2 : (finalizeStreamingMessage parse now₁ t₁ st).streamOpen = false := by
      simp [finalizeStreamingMessage, h]
    exact hclosed now₂ t₂ _ h2
  · have hcl : st.streamOpen = false := by simpa using h
    rw [hclosed now₁ t₁ st hcl, hclosed now₂ t₂ st hcl]

theorem C3_finalize_idempotent_witness :
    ((∀ c ∈ "1000".data, c ≠ '"') ∧ ("5".data : List Char) ≠ [] ∧
      (∀ x, ("5".data).head? = some x → x ≠ '>') ∧ '<' ∉ "5".data) ∧
    (finalizeStreamingMessage (fun s => s) 9000 "t2".data
        (finalizeStreamingMessage (fun s => s) 6000 "t1".data
          ⟨true, [], [], []⟩)
      = finalizeStreamingMessage (fun s => s) 6000 "t1".data ⟨true, [], [], []⟩ ∧
     finalizeBake 9000 (tagBaked "1000".data "5".data ++ "abc".data)
      = tagBaked "1000".data "5".data ++ finalizeBake 9000 "abc".data) :=
  ⟨⟨by decide, by decide, by decide, by decide⟩,
   C3_finalize_idempotent (fun s => s) 6000 9000 "t1".data "t2".data
     ⟨true, [], [], []⟩ "1000".data "5".data "abc".data
     (by decide) (by decide) (by decide) (by decide)⟩

/-- C4 counterexample: finalizing a buffer holding a single still-open
reasoning block bakes the duration into the opening tag but appends no
closing tag — the finalized buffer still contains no `</think>`, so the
claim that the Finalizer closes every still-open block fails on the code. -/
theorem C4_counterexample :
    finalizeBake 6000 "<think start=\"1000\">abc".data
      = "<think start=\"1000\" duration=\"5\">abc".data ∧
    ¬ ("</think>".data <:+: finalizeBake 6000 "<think start=\"1000\">abc".data) := by
  constructor
  · decide
  · decide

/-- C4 (amended): for every still-open reasoning block whose opening tag
carries a start timestamp, the Finalizer rewrites the opening tag in the
raw buffer to carry the computed literal duration attribute, but it does
not close the block: the text after the rewritten opening tag is exactly
the original remainder, with no closing tag appended. -/
theorem C4_finalize_bakes_but_does_not_close (now : Int) (pre ts X : List Char)
    (hpre : ∀ m, m < pre.length →
      matchBake (pre.drop m ++ (thinkOpenTag ts ++ X)) = none)
    (hts : ∀ c ∈ ts, c ≠ '"')
    (hX : ∀ m, m < X.length → matchBake (X.drop m) = none) :
    finalizeBake now (pre ++ (thinkOpenTag ts ++ X))
      = pre ++ (bakedTag now ts ++ X) := by
  rw [finalizeBake_calc now pre ts X hpre hts, finalizeBake_id_of_none now X hX]

theorem C4_finalize_bakes_but_does_not_close_witness :
    ((∀ m, m < ("hi ".data).length →
        matchBake (("hi ".data).drop m ++ (thinkOpenTag "1000".data ++ "abc".data))
          = none) ∧
      (∀ c ∈ "1000".data, c ≠ '"') ∧
      (∀ m, m < ("abc".data).length → matchBake (("abc".data).drop m) = none)) ∧
    finalizeBake 6000 ("hi ".data ++ (thinkOpenTag "1000".data ++ "abc".data))
      = "hi ".data ++ (bakedTag 6000 "1000".data ++ "abc".data) :=
  ⟨⟨by decide, by decide, by decide⟩,
   C4_finalize_bakes_but_does_not_close 6000 "hi ".data "1000".data "abc".data
     (by decide) (by decide) (by decide)⟩

/-- C5: Duration bake arithmetic: for a reasoning block whose opening tag
carries start timestamp `ts` parsing to `T` and no duration attribute,
finalizing at wall-clock time `T + 5000` rewrites the tag to carry
`duration="5"`, and in general the baked value is the elapsed milliseconds
divided by 1000 rounded to the nearest integer (`Math.round`). -/
theorem C5_duration_bake (T : Int) (pre ts X : List Char)
    (hparse : jsParseInt ts = some T)
    (hts : ∀ c ∈ ts, c ≠ '"')
    (hpre : ∀ m, m < pre.length →
      matchBake (pre.drop m ++ (thinkOpenTag ts ++ X)) = none) :
    finalizeBake (T + 5000) (pre ++ (thinkOpenTag ts ++ X))
      = pre ++ (tagBaked ts "5".data ++ finalizeBake (T + 5000) X) ∧
    jsRoundDiv1000 ((T + 5000) - T) = 5 := by
  have h5 : (T + 5000) - T = 5000 := by ring
  constructor
  · rw [finalizeBake_calc (T + 5000) pre ts X hpre hts, bakedTag_eq_tagBaked]
    have hd : durChars (T + 5000) ts = "5".data := by
      unfold durChars
      rw [hparse]
      show jsIntToChars (jsRoundDiv1000 (T + 5000 - T)) = "5".data
      rw [h5]
      decide
    rw [hd]
  · rw [h5]
    decide

theorem C5_duration_bake_witness :
    (jsParseInt "1000".data = some 1000 ∧ (∀ c ∈ "1000".data, c ≠ '"') ∧
      (∀ m, m < (([] : List Char)).length →
        matchBake ((([] : List Char)).drop m ++ (thinkOpenTag "1000".data ++ "x".data))
          = none)) ∧
    (finalizeBake (1000 + 5000) ([] ++ (thinkOpenTag "1000".data ++ "x".data))
      = [] ++ (tagBaked "1000".data "5".data ++ finalizeBake (1000 + 5000) "x".data) ∧
     jsRoundDiv1000 ((1000 + 5000) - 1000) = 5) :=
  ⟨⟨by decide, by decide, by decide⟩,
   C5_duration_bake 1000 [] "1000".data "x".data (by decide) (by decide) (by decide)⟩

/-- C7 counterexample: a reasoning block with start timestamp `1000` and no
duration attribute is labelled `Thinking` while open — no elapsed value is
computed into the label — and once closed (but not yet baked) its label is
recomputed from the wall clock on every render (`5s` at 6000ms, `6s` at
7000ms), so it is not frozen at close. This refutes the claim that open
blocks show a live elapsed value and closed blocks a frozen one. -/
theorem C7_counterexample :
    durationText 6000 (some "1000".data) none false = "Thinking".data ∧
    durationText 6000 (some "1000".data) none true = "Thought for 5s".data ∧
    durationText 7000 (some "1000".data) none true = "Thought for 6s".data := by
  refine ⟨by decide, by decide, by decide⟩

/-- C7 (amended): for a reasoning block whose tag carries a nonempty start
timestamp and no duration attribute, the label while the block is open is
the static `Thinking` (no elapsed value); once the block is closed each
render recomputes the displayed elapsed value as `Math.round((now − start)
/ 1000)` seconds from the wall clock; the value is frozen only once a
literal duration attribute is baked, after which that attribute value is
displayed unchanged. -/
theorem C7_duration_label (now : Int) (ts : List Char) (T : Int)
    (hne : ts ≠ []) (hparse : jsParseInt ts = some T) :
    durationText now (some ts) none false = "Thinking".data ∧
    durationText now (some ts) none true
      = "Thought for ".data ++ jsIntToChars (jsRoundDiv1000 (now - T)) ++ ['s'] ∧
    (∀ d : List Char, d ≠ [] →
      durationText now (some ts) (some d) true = "Thought for ".data ++ d ++ ['s']) := by
  refine ⟨?_, ?_, ?_⟩
  · simp [durationText, hne]
  · simp [durationText, hne, hparse]
  · intro d hd
    simp [durationText, hd]

theorem C7_duration_label_witness :
    (("1000".data : List Char) ≠ [] ∧ jsParseInt "1000".data = some 1000) ∧
    (durationText 6000 (some "1000".data) none false = "Thinking".data ∧
     durationText 6000 (some "1000".data) none true
       = "Thought for ".data ++ jsIntToChars (jsRoundDiv1000 (6000 - 1000)) ++ ['s'] ∧
     (∀ d : List Char, d ≠ [] →
       durationText 6000 (some "1000".data) (some d) true
         = "Thought for ".data ++ d ++ ['s'])) :=
  ⟨⟨by decide, by decide⟩,
   C7_duration_label 6000 "1000".data 1000 (by decide) (by decide)⟩

/-- C9: Link classification trichotomy: no URL is classified both external
and app (the if-chain then makes the three classes exhaustive and mutually
exclusive); a URL matching neither class is internal; the three concrete
example URLs land in the three distinct classes and their rendered outputs
are pairwise distinct literal shapes. -/
theorem C9_link_classification :
    (∀ url : String, ¬ (isExternalUrl url = true ∧ isAppUrl url = true)) ∧
    (∀ url : String, isExternalUrl url = false → isAppUrl url = false →
      classifyLink url = .internal) ∧
    classifyLink "https://x.test" = .external ∧
    classifyLink "mailto:a@b.test" = .app ∧
    classifyLink "/relative/path" = .internal ∧
    renderLink "https://x.test" none "x" ≠ renderLink "mailto:a@b.test" none "x" ∧
    renderLink "https://x.test" none "x" ≠ renderLink "/relative/path" none "x" ∧
    renderLink "mailto:a@b.test" none "x" ≠ renderLink "/relative/path" none "x" := by
  refine ⟨?_, ?_, by decide, by decide, by decide, by decide, by decide, by decide⟩
  · rintro url ⟨hext, happ⟩
    obtain ⟨p1, hp1mem, hp1⟩ := List.any_eq_true.mp hext
    obtain ⟨p2, hp2mem, hp2⟩ := List.any_eq_true.mp happ
    have h1 := List.isPrefixOf_iff_prefix.mp hp1
    have h2 := List.isPrefixOf_iff_prefix.mp hp2
    rcases List.prefix_or_prefix_of_prefix h1 h2 with h | h
    · exact (by decide : ∀ p1 ∈ externalProtocols, ∀ p2 ∈ appProtocols, ¬ p1 <+: p2)
        p1 hp1mem p2 hp2mem h
    · exact (by decide : ∀ p1 ∈ externalProtocols, ∀ p2 ∈ appProtocols, ¬ p2 <+: p1)
        p1 hp1mem p2 hp2mem h
  · intro url h1 h2
    simp [classifyLink, h1, h2]

-- ### Lemmas about escapeHTML

theorem expandChars_append (f : Char → List Char) :
    ∀ a b, expandChars f (a ++ b) = expandChars f a ++ expandChars f b := by
  intro a b
  induction a with
  | nil => rfl
  | cons c rest ih => simp [expandChars, ih]

theorem expandChars_comp (f g : Char → List Char) :
    ∀ s, expandChars f (expandChars g s)
      = expandChars (fun c => expandChars f (g c)) s := by
  intro s
  induction s with
  | nil => rfl
  | cons c rest ih => simp [expandChars, expandChars_append, ih]

theorem expandChars_congr (f g : Char → List Char) (h : ∀ c, f c = g c) :
    ∀ s, expandChars f s = expandChars g s := by
  intro s
  induction s with
  | nil => rfl
  | cons c rest ih => simp [expandChars, h c, ih]

theorem mem_expandChars (f : Char → List Char) :
    ∀ s c, c ∈ expandChars f s → ∃ x ∈ s, c ∈ f x := by
  intro s
  induction s with
  | nil => intro c h; simp [expandChars] at h
  | cons x rest ih =>
    intro c h
    simp only [expandChars, List.mem_append] at h
    rcases h with h | h
    · exact ⟨x, List.mem_cons_self x rest, h⟩
    · obtain ⟨y, hy, hcy⟩ := ih c h
      exact ⟨y, List.mem_cons_of_mem x hy, hcy⟩

/-- A single-character global replace is exactly a character expansion. -/
theorem replaceAll_single (c : Char) (rep : List Char) :
    ∀ s, replaceAll [c] rep s
      = expandChars (fun x => if x = c then rep else [x]) s := by
  intro s
  induction s with
  | nil => rfl
  | cons x rest ih =>
    rw [replaceAll_eq [c] rep (by simp) x rest]
    by_cases hx : x = c
    · subst hx
      rw [if_pos (by simp [List.isPrefixOf])]
      simp [expandChars, ih]
    · rw [if_neg (by simp [List.isPrefixOf]; exact fun h => hx h.symm)]
      simp [expandChars, hx, ih]

/-- The five sequential replaces of `escapeHTML` compute the per-character
entity map: every occurrence of each metacharacter is replaced by its
entity, and the replaces do not interfere with one another. -/
theorem escapeHTMLl_eq_expand : ∀ s, escapeHTMLl s = expandChars escChar s := by
  intro s
  unfold escapeHTMLl
  rw [replaceAll_single, replaceAll_single, replaceAll_single, replaceAll_single,
      replaceAll_single, expandChars_comp, expandChars_comp, expandChars_comp,
      expandChars_comp]
  apply expandChars_congr
  intro x
  by_cases h1 : x = '&'
  · subst h1; rfl
  · by_cases h2 : x = '<'
    · subst h2; rfl
    · by_cases h3 : x = '>'
      · subst h3; rfl
      · by_cases h4 : x = '"'
        · subst h4; rfl
        · by_cases h5 : x = '\''
          · subst h5; rfl
          · simp [expandChars, escChar, h1, h2, h3, h4, h5]

theorem escChar_no_meta : ∀ x c, c ∈ escChar x →
    c ≠ '<' ∧ c ≠ '>' ∧ c ≠ '"' ∧ c ≠ '\'' := by
  intro x c hc
  unfold escChar at hc
  by_cases h1 : x = '&'
  · rw [if_pos h1] at hc
    exact (by decide : ∀ y ∈ "&amp;".data, y ≠ '<' ∧ y ≠ '>' ∧ y ≠ '"' ∧ y ≠ '\'') c hc
  · rw [if_neg h1] at hc
    by_cases h2 : x = '<'
    · rw [if_pos h2] at hc
      exact (by decide : ∀ y ∈ "&lt;".data, y ≠ '<' ∧ y ≠ '>' ∧ y ≠ '"' ∧ y ≠ '\'') c hc
    · rw [if_neg h2] at hc
      by_cases h3 : x = '>'
      · rw [if_pos h3] at hc
        exact (by decide : ∀ y ∈ "&gt;".data, y ≠ '<' ∧ y ≠ '>' ∧ y ≠ '"' ∧ y ≠ '\'') c hc
      · rw [if_neg h3] at hc
        by_cases h4 : x = '"'
        · rw [if_pos h4] at hc
          exact (by decide : ∀ y ∈ "&quot;".data, y ≠ '<' ∧ y ≠ '>' ∧ y ≠ '"' ∧ y ≠ '\'') c hc
        · rw [if_neg h4] at hc
          by_cases h5 : x = '\''
          · rw [if_pos h5] at hc
            exact (by decide : ∀ y ∈ "&#39;".data, y ≠ '<' ∧ y ≠ '>' ∧ y ≠ '"' ∧ y ≠ '\'') c hc
          · rw [if_neg h5] at hc
            have : c = x := by simpa using hc
            subst this
            exact ⟨h2, h3, h4, h5⟩

/-- C10: Escaped fallback: when the markup library is unavailable,
`renderMarkdown` returns `escapeHTML(text)`: the empty string for any
non-string input, and otherwise the input with every occurrence of `&`,
`<`, `>`, `"` and `'` replaced by its HTML entity — so the fallback output
contains no unescaped HTML metacharacter. -/
theorem C10_escaped_fallback :
    renderMarkdownNoLib JsVal.nonString = "" ∧
    (∀ s : String, renderMarkdownNoLib (JsVal.str s) = ⟨expandChars escChar s.data⟩) ∧
    (∀ s : String, ∀ c ∈ (renderMarkdownNoLib (JsVal.str s)).data,
      c ≠ '<' ∧ c ≠ '>' ∧ c ≠ '"' ∧ c ≠ '\'') := by
  refine ⟨rfl, ?_, ?_⟩
  · intro s
    show (⟨escapeHTMLl s.data⟩ : String) = _
    rw [escapeHTMLl_eq_expand]
  · intro s c hc
    have hc' : c ∈ expandChars escChar s.data := by
      have : (renderMarkdownNoLib (JsVal.str s)).data = expandChars escChar s.data := by
        show (⟨escapeHTMLl s.data⟩ : String).data = _
        rw [escapeHTMLl_eq_expand]
      rwa [this] at hc
    obtain ⟨x, _, hcx⟩ := mem_expandChars escChar s.data c hc'
    exact escChar_no_meta x c hcx

-- ### Lemmas about the reasoning-block extractor

theorem matchAttr_length (key s v r : List Char) (h : matchAttr key s = some (v, r)) :
    r.length < s.length := by
  by_cases hpre : key.isPrefixOf s
  · simp only [matchAttr, if_pos hpre] at h
    split at h
    · rename_i r' heq
      injection h with h1
      injection h1 with hv hr
      subst hr
      have hlen := congrArg List.length heq
      simp only [List.length_drop, List.length_cons] at hlen
      omega
    · simp at h
  · simp only [matchAttr, if_neg hpre] at h
    simp at h

theorem matchThinkTail_length (st du : Option (List Char)) (r : List Char)
    (out : Option (List Char) × Option (List Char) × List Char)
    (h : matchThinkTail st du r = some out) : out.2.2.length < r.length := by
  unfold matchThinkTail at h
  split at h
  · rename_i r'
    injection h with h1
    subst h1
    simp
  · simp at h

theorem orElse_eq_some {α : Type} (a b : Option α) (x : α) (h : (a <|> b) = some x) :
    a = some x ∨ (a = none ∧ b = some x) := by
  cases a with
  | none => right; exact ⟨rfl, by simpa using h⟩
  | some y => left; simpa using h

theorem matchThinkAt_length (s : List Char)
    (out : Option (List Char) × Option (List Char) × List Char)
    (h : matchThinkAt s = some out) : out.2.2.length < s.length := by
  unfold matchThinkAt at h
  rcases orElse_eq_some _ _ _ h with h1 | ⟨_, h1⟩
  · cases hA : matchAttr " start=\"".data s with
    | none => rw [hA] at h1; simp at h1
    | some p =>
      obtain ⟨sv, r1⟩ := p
      rw [hA] at h1
      have h1' : (match matchAttr " duration=\"".data r1 with
          | some (dv, r2) => matchThinkTail (some sv) (some dv) r2
          | none => none) = some out := h1
      cases hB : matchAttr " duration=\"".data r1 with
      | none => rw [hB] at h1'; simp at h1'
      | some q =>
        obtain ⟨dv, r2⟩ := q
        rw [hB] at h1'
        exact Nat.lt_trans
          (Nat.lt_trans (matchThinkTail_length _ _ _ _ h1')
            (matchAttr_length _ _ _ _ hB))
          (matchAttr_length _ _ _ _ hA)
  · rcases orElse_eq_some _ _ _ h1 with h2 | ⟨_, h2⟩
    · cases hA : matchAttr " start=\"".data s with
      | none => rw [hA] at h2; simp at h2
      | some p =>
        obtain ⟨sv, r1⟩ := p
        rw [hA] at h2
        have h2' : matchThinkTail (some sv) none r1 = some out := h2
        exact Nat.lt_trans (matchThinkTail_length _ _ _ _ h2')
          (matchAttr_length _ _ _ _ hA)
    · rcases orElse_eq_some _ _ _ h2 with h3 | ⟨_, h3⟩
      · cases hA : matchAttr " duration=\"".data s with
        | none => rw [hA] at h3; simp at h3
        | some p =>
          obtain ⟨dv, r1⟩ := p
          rw [hA] at h3
          have h3' : matchThinkTail none (some dv) r1 = some out := h3
          exact Nat.lt_trans (matchThinkTail_length _ _ _ _ h3')
            (matchAttr_length _ _ _ _ hA)
      · exact matchThinkTail_length _ _ _ _ h3

theorem splitAtClose_length : ∀ (s pre post : List Char),
    splitAtClose s = some (pre, post) → post.length + 8 ≤ s.length := by
  intro s
  induction s with
  | nil => intro pre post h; simp [splitAtClose] at h
  | cons c rest ih =>
    intro pre post h
    by_cases hpre : "</think>".data.isPrefixOf (c :: rest)
    · simp only [splitAtClose, if_pos hpre] at h
      injection h with h1
      injection h1 with hp hq
      subst hq
      have hle : ("</think>".data).length ≤ (c :: rest).length :=
        (List.isPrefixOf_iff_prefix.mp hpre).length_le
      simp only [List.length_drop, List.length_cons] at *
      omega
    · simp only [splitAtClose, if_neg hpre] at h
      split at h
      · rename_i pre' post' heq
        injection h with h1
        injection h1 with hp hq
        subst hq
        have := ih _ _ heq
        simp only [List.length_cons]
        omega
      · simp at h

theorem extractScanF_nil : ∀ f i, extractScanF f i [] = ([], [])
  | 0, _ => rfl
  | _ + 1, _ => rfl

theorem extractScanF_congr :
    ∀ f₁ f₂ i s, s.length ≤ f₁ → s.length ≤ f₂ →
      extractScanF f₁ i s = extractScanF f₂ i s := by
  intro f₁
  induction f₁ with
  | zero =>
    intro f₂ i s hs _
    have : s = [] := List.eq_nil_of_length_eq_zero (Nat.le_zero.mp hs)
    subst this
    simp [extractScanF_nil]
  | succ f ih =>
    intro f₂ i s hs₁ hs₂
    match s with
    | [] => simp [extractScanF_nil]
    | c :: rest =>
      obtain ⟨g, rfl⟩ : ∃ g, f₂ = g + 1 := by
        cases f₂ with
        | zero => simp at hs₂
        | succ g => exact ⟨g, rfl⟩
      simp only [List.length_cons] at hs₁ hs₂
      by_cases hpre : "<think".data.isPrefixOf (c :: rest)
      · cases hm : matchThinkAt ((c :: rest).drop 6) with
        | some out =>
          obtain ⟨sv, dv, r⟩ := out
          have hr : r.length < ((c :: rest).drop 6).length :=
            matchThinkAt_length _ _ hm
          simp only [List.length_drop, List.length_cons] at hr
          cases hs : splitAtClose r with
          | some p =>
            obtain ⟨content, rest'⟩ := p
            have hrest' := splitAtClose_length _ _ _ hs
            simp only [extractScanF, hpre, hm, hs]
            rw [ih g (i + 1) rest' (by omega) (by omega)]
            simp
          | none =>
            simp only [extractScanF, hpre, hm, hs]
            simp
        | none =>
          simp only [extractScanF, hpre, hm]
          rw [ih g i rest (by omega) (by omega)]
      · have hpre' : "<think".data.isPrefixOf (c :: rest) = false := by
          cases hb : "<think".data.isPrefixOf (c :: rest)
          · rfl
          · exact absurd hb hpre
        simp only [extractScanF, hpre']
        rw [ih g i rest (by omega) (by omega)]
        simp

theorem extractScan_no_think (i : Nat) (c : Char) (rest : List Char)
    (h : ¬ "<think".data.isPrefixOf (c :: rest)) :
    extractScan i (c :: rest)
      = ((c :: (extractScan i rest).1), (extractScan i rest).2) := by
  show extractScanF (rest.length + 1) i (c :: rest) = _
  simp only [extractScanF, if_neg h]
  rfl

theorem extractScan_open (i : Nat) (s : List Char)
    (sv dv : Option (List Char)) (r : List Char)
    (hpre : "<think".data.isPrefixOf s)
    (hm : matchThinkAt (s.drop 6) = some (sv, dv, r))
    (hs : splitAtClose r = none) :
    extractScan i s = (markerChars i, [⟨sv, dv, r, false⟩]) := by
  cases s with
  | nil => simp [List.isPrefixOf] at hpre
  | cons c rest =>
    show extractScanF (rest.length + 1) i (c :: rest) = _
    simp only [extractScanF, if_pos hpre, hm, hs]

theorem extractScan_through (i : Nat) :
    ∀ (n : Nat) (pre X : List Char), pre.length ≤ n →
      (∀ m, m < pre.length → ¬ "<think".data.isPrefixOf (pre.drop m ++ X)) →
      extractScan i (pre ++ X)
        = (pre ++ (extractScan i X).1, (extractScan i X).2) := by
  intro n
  induction n with
  | zero =>
    intro pre X hp _
    have : pre = [] := List.eq_nil_of_length_eq_zero (Nat.le_zero.mp hp)
    subst this
    simp
  | succ n ih =>
    intro pre X hp h
    cases pre with
    | nil => simp
    | cons c pre' =>
      have h0 : ¬ "<think".data.isPrefixOf (c :: (pre' ++ X)) := by
        have := h 0 (by simp)
        simpa using this
      rw [show ((c :: pre') ++ X) = c :: (pre' ++ X) from rfl,
          extractScan_no_think i _ _ h0,
          ih pre' X (by simpa using hp)
            (fun m hm => by
              have := h (m + 1) (by simpa using Nat.succ_lt_succ hm)
              simpa using this)]
      rfl

/-- Computing one attribute group at an exact occurrence. -/
theorem matchAttr_at (key ts r : List Char) (hts : ∀ c ∈ ts, c ≠ '"') :
    matchAttr key (key ++ (ts ++ '"' :: r)) = some (ts, r) := by
  simp only [matchAttr,
    if_pos (List.isPrefixOf_iff_prefix.mpr (List.prefix_append _ _)),
    List.drop_left]
  rw [takeWhile_append_stop _ ts '"' r (fun c hc => by simpa using hts c hc) (by decide),
      List.drop_left]
  rfl

/-- The opening-tag regex at `<think start="ts">…`: the first alternative
(start and duration groups both present) fails at the duration group, and
the second (start only) succeeds. -/
theorem matchThinkAt_at_start (ts rest : List Char) (hts : ∀ c ∈ ts, c ≠ '"') :
    matchThinkAt (" start=\"".data ++ (ts ++ '"' :: '>' :: rest))
      = some (some ts, none, rest) := by
  have hA := matchAttr_at " start=\"".data ts ('>' :: rest) hts
  have hdur : matchAttr " duration=\"".data ('>' :: rest) = none := by
    simp only [matchAttr]
    rw [if_neg]
    intro hp
    obtain ⟨t, ht⟩ := List.isPrefixOf_iff_prefix.mp hp
    have := congrArg List.head? ht
    simp at this
  unfold matchThinkAt
  rw [hA]
  show ((match matchAttr " duration=\"".data ('>' :: rest) with
        | some (dv, r2) => matchThinkTail (some ts) (some dv) r2
        | none => none) <|>
      matchThinkTail (some ts) none ('>' :: rest) <|>
      (match matchAttr " duration=\"".data
          (" start=\"".data ++ (ts ++ '"' :: '>' :: rest)) with
        | some (dv, r1) => matchThinkTail none (some dv) r1
        | none => none) <|>
      matchThinkTail none none (" start=\"".data ++ (ts ++ '"' :: '>' :: rest)))
    = some (some ts, none, rest)
  rw [hdur]
  rfl

/-- The scanner `splitAtClose` returns `none` exactly when the buffer contains no
closing tag. -/
theorem splitAtClose_none_iff : ∀ s : List Char,
    splitAtClose s = none ↔ ¬ ("</think>".data <:+: s) := by
  intro s
  induction s with
  | nil =>
    constructor
    · intro _ h
      rw [List.infix_nil] at h
      exact absurd h (by decide)
    · intro _
      rfl
  | cons c rest ih =>
    by_cases hpre : "</think>".data.isPrefixOf (c :: rest)
    · constructor
      · intro h
        simp [splitAtClose, hpre] at h
      · intro h
        exact absurd (List.isPrefixOf_iff_prefix.mp hpre).isInfix h
    · constructor
      · intro h hinf
        rcases List.infix_cons_iff.mp hinf with hp | hin
        · exact hpre (List.isPrefixOf_iff_prefix.mpr hp)
        · cases hsc : splitAtClose rest with
          | some p =>
            obtain ⟨a, b⟩ := p
            simp [splitAtClose, hpre, hsc] at h
          | none => exact (ih.mp hsc) hin
      · intro h
        cases hsc : splitAtClose rest with
        | some p =>
          exfalso
          apply h
          have hin : "</think>".data <:+: rest := by
            by_contra hni
            rw [ih.mpr hni] at hsc
            cases hsc
          exact List.infix_cons hin
        | none => simp [splitAtClose, hpre, hsc]

/-- C6: Unterminated tags are not errors: a buffer whose prefix contains no
opening reasoning tag, followed by `<think start="ts">` with no matching
`</think>` anywhere before end of buffer, extracts to exactly one
reasoning block, in the open state, whose inner text is everything from
the opening tag to the end of the buffer (possibly empty), and whose label
is `Thinking` — no literal duration is shown. -/
theorem C6_open_block_liveness (i : Nat) (now : Int) (pre ts rest : List Char)
    (hpre : ∀ m, m < pre.length →
      ¬ "<think".data.isPrefixOf (pre.drop m ++ (thinkOpenTag ts ++ rest)))
    (hts : ∀ c ∈ ts, c ≠ '"')
    (hnc : ¬ ("</think>".data <:+: rest)) :
    extractScan i (pre ++ (thinkOpenTag ts ++ rest))
      = (pre ++ markerChars i, [⟨some ts, none, rest, false⟩]) ∧
    durationText now (some ts) none false = "Thinking".data := by
  constructor
  · rw [extractScan_through i pre.length pre _ le_rfl hpre]
    have hdecomp : thinkOpenTag ts ++ rest
        = "<think".data ++ (" start=\"".data ++ (ts ++ '"' :: '>' :: rest)) := by
      simp [thinkOpenTag]
    have h1 : "<think".data.isPrefixOf (thinkOpenTag ts ++ rest) := by
      apply List.isPrefixOf_iff_prefix.mpr
      exact ⟨_, hdecomp.symm⟩
    have h2 : matchThinkAt ((thinkOpenTag ts ++ rest).drop 6)
        = some (some ts, none, rest) := by
      rw [hdecomp, show (6 : Nat) = ("<think".data).length from rfl, List.drop_left]
      exact matchThinkAt_at_start ts rest hts
    have h3 : splitAtClose rest = none := (splitAtClose_none_iff rest).mpr hnc
    rw [extractScan_open i _ (some ts) none rest h1 h2 h3]
  · by_cases h : ts = [] <;> simp [durationText, h]

theorem C6_open_block_liveness_witness :
    ((∀ m, m < ("hi ".data).length →
        ¬ "<think".data.isPrefixOf
          (("hi ".data).drop m ++ (thinkOpenTag "1000".data ++ "partial".data))) ∧
      (∀ c ∈ "1000".data, c ≠ '"') ∧
      ¬ ("</think>".data <:+: "partial".data)) ∧
    (extractScan 0 ("hi ".data ++ (thinkOpenTag "1000".data ++ "partial".data))
      = ("hi ".data ++ markerChars 0,
          [⟨some "1000".data, none, "partial".data, false⟩]) ∧
     durationText 6000 (some "1000".data) none false = "Thinking".data) :=
  ⟨⟨by decide, by decide, by decide⟩,
   C6_open_block_liveness 0 6000 "hi ".data "1000".data "partial".data
     (by decide) (by decide) (by decide)⟩

/-- C8: Alias equivalence: for every inner text `X`, rendering the buffer
`<thinking>X</thinking>` and rendering `<think>X</think>` produce
byte-identical output, for every markup library `parse` and wall clock
`now`: the Tag Normalizer rewrites the alias pair to the canonical pair
before any other processing, and the rest of the pipeline is a function of
the normalized buffer. -/
theorem C8_alias_equivalence (parse : List Char → List Char) (now : Int)
    (X : List Char) :
    renderMarkdown parse now ("<thinking>".data ++ X ++ "</thinking>".data)
      = renderMarkdown parse now ("<think>".data ++ X ++ "</think>".data) := by
  unfold renderMarkdown
  rw [normalizeThink_alias X]

-- ### Sanitizer containment lemmas

theorem escTextChar_no_lt : ∀ x c, c ∈ escTextChar x → c ≠ '<' := by
  intro x c hc
  unfold escTextChar at hc
  by_cases h1 : x = '&'
  · rw [if_pos h1] at hc
    exact (by decide : ∀ y ∈ "&amp;".data, y ≠ '<') c hc
  · rw [if_neg h1] at hc
    by_cases h2 : x = '<'
    · rw [if_pos h2] at hc
      exact (by decide : ∀ y ∈ "&lt;".data, y ≠ '<') c hc
    · rw [if_neg h2] at hc
      by_cases h3 : x = '>'
      · rw [if_pos h3] at hc
        exact (by decide : ∀ y ∈ "&gt;".data, y ≠ '<') c hc
      · rw [if_neg h3] at hc
        have : c = x := by simpa using hc
        subst this
        exact h2

theorem escAttrChar_no_lt : ∀ x c, c ∈ escAttrChar x → c ≠ '<' := by
  intro x c hc
  unfold escAttrChar at hc
  by_cases h1 : x = '&'
  · rw [if_pos h1] at hc
    exact (by decide : ∀ y ∈ "&amp;".data, y ≠ '<') c hc
  · rw [if_neg h1] at hc
    by_cases h2 : x = '<'
    · rw [if_pos h2] at hc
      exact (by decide : ∀ y ∈ "&lt;".data, y ≠ '<') c hc
    · rw [if_neg h2] at hc
      by_cases h3 : x = '>'
      · rw [if_pos h3] at hc
        exact (by decide : ∀ y ∈ "&gt;".data, y ≠ '<') c hc
      · rw [if_neg h3] at hc
        by_cases h4 : x = '"'
        · rw [if_pos h4] at hc
          exact (by decide : ∀ y ∈ "&quot;".data, y ≠ '<') c hc
        · rw [if_neg h4] at hc
          have : c = x := by simpa using hc
          subst this
          exact h2

theorem expandChars_no_lt (f : Char → List Char) (hf : ∀ x c, c ∈ f x → c ≠ '<') :
    ∀ s, '<' ∉ expandChars f s := by
  intro s h
  obtain ⟨x, _, hx⟩ := mem_expandChars f s '<' h
  exact hf x '<' hx rfl

theorem allowedTags_facts : ∀ nm ∈ allowedTags,
    '<' ∉ nm ∧ ¬ nm <+: "script".data ∧ ¬ "script".data <+: nm := by decide

theorem allowedAttrs_no_lt : ∀ nm ∈ allowedAttrs, '<' ∉ nm := by decide

theorem serializeAttrs_no_lt : ∀ (attrs : List (List Char × List Char)),
    (∀ a ∈ attrs, a.1 ∈ allowedAttrs) → '<' ∉ serializeAttrs attrs := by
  intro attrs
  induction attrs with
  | nil => intro _ h; simp [serializeAttrs] at h
  | cons a rest ih =>
    intro hall h
    obtain ⟨n, v⟩ := a
    have hn : n ∈ allowedAttrs := hall _ (List.mem_cons_self _ _)
    simp only [serializeAttrs, List.mem_append, List.mem_cons] at h
    rcases h with (h | h) | h
    · rcases h with h | h
      · exact absurd h (by decide)
      · exact allowedAttrs_no_lt n hn h
    · rcases h with h | h
      · exact absurd h (by decide)
      · rcases h with h | h
        · exact absurd h (by decide)
        · exact expandChars_no_lt escAttrChar escAttrChar_no_lt v h
    · rcases h with h | h
      · exact absurd h (by decide)
      · exact ih (fun b hb => hall b (List.mem_cons_of_mem _ hb)) h

/-- Two lists neither of which is a prefix of the other stay incomparable
after extending the second. -/
theorem not_prefix_append (p a : List Char) (h1 : ¬ a <+: p) (h2 : ¬ p <+: a) :
    ∀ z, ¬ p <+: a ++ z := by
  intro z hp
  rcases Nat.le_total p.length a.length with hle | hle
  · apply h2
    obtain ⟨t, ht⟩ := hp
    have hpe : p = (a ++ z).take p.length := by
      rw [← ht, List.take_append_of_le_length le_rfl, List.take_length]
    rw [hpe, List.take_append_of_le_length hle]
    exact List.take_prefix _ _
  · apply h1
    obtain ⟨t, ht⟩ := hp
    have hae : a = p.take a.length := by
      have e1 : (a ++ z).take a.length = a := by simp
      rw [← ht, List.take_append_of_le_length hle] at e1
      exact e1.symm
    rw [hae]
    exact List.take_prefix _ _

theorem noOcc_nil (pt : List Char) : ¬ ('<' :: pt <:+: ([] : List Char)) := by
  rw [List.infix_nil]
  simp

/-- A run of text containing no `<` cannot host the start of a `<`-headed
pattern: an occurrence must live entirely in the continuation. -/
theorem noOcc_text (pt : List Char) : ∀ (t : List Char), '<' ∉ t →
    ∀ u, ¬ ('<' :: pt <:+: u) → ¬ ('<' :: pt <:+: t ++ u) := by
  intro t
  induction t with
  | nil => intro _ u hu; simpa using hu
  | cons c t' ih =>
    intro hlt u hu hinf
    rw [List.cons_append] at hinf
    rcases List.infix_cons_iff.mp hinf with hp | hinf'
    · obtain ⟨z, hz⟩ := hp
      have hc : '<' = c := by
        have := congrArg List.head? hz
        simpa using this
      apply hlt
      rw [← hc]
      exact hc ▸ List.mem_cons_self c t'
    · exact ih (fun hm => hlt (List.mem_cons_of_mem c hm)) u hu hinf'

/-- A serialized tag chunk `<t…` whose body diverges from the pattern tail
cannot host an occurrence of the pattern either. -/
theorem noOcc_tag (pt t : List Char) (hlt : '<' ∉ t)
    (hdiv : ∀ z, ¬ pt <+: t ++ z) :
    ∀ u, ¬ ('<' :: pt <:+: u) → ¬ ('<' :: pt <:+: ('<' :: t) ++ u) := by
  intro u hu hinf
  rw [List.cons_append] at hinf
  rcases List.infix_cons_iff.mp hinf with hp | hinf'
  · obtain ⟨z, hz⟩ := hp
    rw [List.cons_append] at hz
    injection hz with h1 h2
    exact hdiv u ⟨z, h2⟩
  · exact noOcc_text pt t hlt u hu hinf'

/-- The Sanitizer's guarantee on one token (spec section 4.5): text is
unconstrained, and tags carry an allow-listed name and only allow-listed
attribute names. -/
def tokAllowed : HtmlTok → Prop
  | .text _ => True
  | .tagOpen name attrs => name ∈ allowedTags ∧ ∀ a ∈ attrs, a.1 ∈ allowedAttrs
  | .tagClose name => name ∈ allowedTags

theorem filterToks_allowed : ∀ toks, ∀ tk ∈ filterToks toks, tokAllowed tk := by
  intro toks
  induction toks with
  | nil => intro tk h; simp [filterToks] at h
  | cons t rest ih =>
    intro tk h
    cases t with
    | text s =>
      rw [show filterToks (.text s :: rest) = .text s :: filterToks rest from rfl] at h
      rcases List.mem_cons.mp h with rfl | h
      · trivial
      · exact ih tk h
    | tagOpen name attrs =>
      by_cases hn : name ∈ allowedTags
      · simp only [filterToks, if_pos hn] at h
        rcases List.mem_cons.mp h with rfl | h
        · refine ⟨hn, fun a ha => ?_⟩
          have := List.of_mem_filter ha
          simpa using this
        · exact ih tk h
      · simp only [filterToks, if_neg hn] at h
        exact ih tk h
    | tagClose name =>
      by_cases hn : name ∈ allowedTags
      · simp only [filterToks, if_pos hn] at h
        rcases List.mem_cons.mp h with rfl | h
        · exact hn
        · exact ih tk h
      · simp only [filterToks, if_neg hn] at h
        exact ih tk h

/-- Serialized allow-listed tokens never contain `<script`. -/
theorem serializeToks_no_script (toks : List HtmlTok)
    (hwf : ∀ tk ∈ toks, tokAllowed tk) :
    ¬ ("<script".data <:+: serializeToks toks) := by
  induction toks with
  | nil => exact noOcc_nil "script".data
  | cons tk rest ih =>
    have hu := ih (fun t ht => hwf t (List.mem_cons_of_mem tk ht))
    rw [show serializeToks (tk :: rest) = serializeTok tk ++ serializeToks rest from rfl]
    cases tk with
    | text s =>
      exact noOcc_text "script".data _
        (expandChars_no_lt escTextChar escTextChar_no_lt s) _ hu
    | tagOpen name attrs =>
      obtain ⟨hn, hattrs⟩ := hwf _ (List.mem_cons_self _ _)
      have hlt : '<' ∉ name ++ serializeAttrs attrs ++ ['>'] := by
        intro hmem
        rcases List.mem_append.mp hmem with hmem | hmem
        · rcases List.mem_append.mp hmem with hmem | hmem
          · exact (allowedTags_facts name hn).1 hmem
          · exact serializeAttrs_no_lt attrs hattrs hmem
        · simp at hmem
      have hdiv : ∀ z, ¬ "script".data <+: (name ++ serializeAttrs attrs ++ ['>']) ++ z := by
        intro z hp
        rw [List.append_assoc, List.append_assoc] at hp
        exact not_prefix_append "script".data name (allowedTags_facts name hn).2.1
          (allowedTags_facts name hn).2.2 _ hp
      exact noOcc_tag "script".data _ hlt hdiv _ hu
    | tagClose name =>
      have hn := hwf _ (List.mem_cons_self _ _)
      have hn' : name ∈ allowedTags := hn
      have hlt : '<' ∉ '/' :: (name ++ ['>']) := by
        intro hmem
        rcases List.mem_cons.mp hmem with h | h
        · exact absurd h (by decide)
        · rcases List.mem_append.mp h with h | h
          · exact (allowedTags_facts name hn').1 h
          · simp at h
      have hdiv : ∀ z, ¬ "script".data <+: ('/' :: (name ++ ['>'])) ++ z := by
        intro z hp
        obtain ⟨t, ht⟩ := hp
        have := congrArg List.head? ht
        simp at this
      exact noOcc_tag "script".data _ hlt hdiv _ hu

/-- C2: Sanitizer containment: for every input buffer — including buffers
that smuggle a `<script>` tag anywhere, also inside a reasoning block's
inner text — the output of the full pipeline is the serialization of
tokens whose tags and attributes all lie on the fixed allow-lists, and in
particular the output contains no occurrence of `<script` at all, because
the Sanitizer runs last, over the fully combined markup (after the
reasoning blocks were reinjected). -/
theorem C2_sanitizer_containment (parse : List Char → List Char) (now : Int)
    (buffer : List Char) :
    (∃ toks, renderMarkdown parse now buffer = serializeToks toks ∧
      ∀ tk ∈ toks, tokAllowed tk) ∧
    ¬ ("<script".data <:+: renderMarkdown parse now buffer) := by
  constructor
  · exact ⟨_, rfl, filterToks_allowed _⟩
  · exact serializeToks_no_script _ (filterToks_allowed _)
